import Mathlib

/-!
Verification development for the voyager VPM index tool.

This file gives a shallow embedding, in Lean, of the persistence and
pipeline core of the tool: the two-file transaction recovery
(src/services/manifest_lock_tx.rs), the manifest hash gate
(src/services/hash_checker.rs, src/lock/lockfile.rs), the fetch
pipeline reconciliation and merge (src/services/package_fetcher.rs),
the URL liveness check (src/infra/http.rs) and the manifest TOML
model (src/config/manifest.rs).  Rust strings are modelled as lists
of characters, machine integers as Nat, fallible operations as
Except values, and file-system effects as explicit state records.
-/

namespace Voyager

/-- Rust `String`, modelled as a list of characters. -/
abbrev Str := List Char

/-! ## Data model: Repository, Manifest, Lockfile (src/domain, src/config, src/lock) -/

/-- `Repository` from src/domain/repository.rs: an `owner/repo` coordinate. -/
structure Repository where
  owner : Str
  repo : Str
deriving DecidableEq, Repr

/-- The `Display` implementation for `Repository`: `owner/repo`. -/
def Repository.display (r : Repository) : Str :=
  r.owner ++ '/' :: r.repo

/-- `is_valid_owner` from src/domain/repository.rs. -/
def isValidOwner (owner : Str) : Bool :=
  decide (owner.length ≤ 39) &&
  !(owner.head? = some '-') && !(owner.getLast? = some '-') &&
  owner.all (fun c => c.isAlphanum || c == '-')

/-- `is_valid_repo` from src/domain/repository.rs. -/
def isValidRepo (repo : Str) : Bool :=
  repo.all (fun c => c.isAlphanum || c == '-' || c == '_' || c == '.')

/-- Splitting a character list on a separator character, the model of
Rust `str::split(c)` (also used for line splitting in the TOML model). -/
def splitOnCharAux (c : Char) : List Char → List Char → List (List Char)
  | [], acc => [acc.reverse]
  | x :: xs, acc =>
    if x = c then acc.reverse :: splitOnCharAux c xs []
    else splitOnCharAux c xs (x :: acc)

/-- Split a character list at every occurrence of `c`. -/
def splitOnChar (c : Char) (l : List Char) : List (List Char) :=
  splitOnCharAux c l []

/-- `Repository::parse` from src/domain/repository.rs. -/
def Repository.parse (s : Str) : Option Repository :=
  match splitOnChar '/' s with
  | [owner, repo] =>
    if owner.isEmpty || repo.isEmpty then none
    else if !(isValidOwner owner) || !(isValidRepo repo) then none
    else some ⟨owner, repo⟩
  | _ => none

/-- The `[vpm]` section of the manifest (src/config/manifest.rs). -/
structure Vpm where
  id : Str
  name : Str
  author : Str
  url : Str
deriving DecidableEq, Repr

/-- A `[[packages]]` entry of the manifest (src/config/manifest.rs). -/
structure Package where
  id : Str
  repository : Repository
deriving DecidableEq, Repr

/-- The manifest (src/config/manifest.rs). -/
structure Manifest where
  vpm : Vpm
  packages : List Package
deriving DecidableEq, Repr

/-- The error kinds of src/error.rs that the embedded core can produce. -/
inductive Error where
  | configValidation (msg : Str)
  | manifestHashMismatch
  | fetchPartialFailure (count : Nat)
  | invalidPackageId (id : Str)
  | invalidUrl (url : Str) (msg : Str)
  | tomlParse (msg : Str)
deriving DecidableEq, Repr

/-- A locked version entry of the lockfile (src/lock/lockfile.rs).  The
nested per-release metadata document is kept abstract as the single
field the lockfile logic inspects is `version`; `manifest_version`
stands for `manifest.version`, from which `LockedVersion::new` copies
the `version` field. -/
structure LockedVersion where
  version : Str
  tag : Str
  url : Str
  hash : Str
  manifest_version : Str
deriving DecidableEq, Repr

/-- A locked package of the lockfile (src/lock/lockfile.rs). -/
structure LockedPackage where
  id : Str
  repository : Repository
  versions : List LockedVersion
deriving DecidableEq, Repr

/-- The lockfile (src/lock/lockfile.rs). -/
structure Lockfile where
  version : Nat
  manifest_hash : Option Str
  packages : List LockedPackage
deriving DecidableEq, Repr

/-- `LOCKFILE_VERSION` from src/lock/lockfile.rs. -/
def LOCKFILE_VERSION : Nat := 1

/-- `MIN_SUPPORTED_VERSION` from src/lock/lockfile.rs. -/
def MIN_SUPPORTED_VERSION : Nat := 1

/-- `MAX_SUPPORTED_VERSION` from src/lock/lockfile.rs. -/
def MAX_SUPPORTED_VERSION : Nat := 1

/-- `Lockfile::new` from src/lock/lockfile.rs. -/
def Lockfile.new : Lockfile :=
  { version := LOCKFILE_VERSION, manifest_hash := none, packages := [] }

/-- `Lockfile::migrate` from src/lock/lockfile.rs: unconditionally
rewrites the version to the current one. -/
def Lockfile.migrate (lockfile : Lockfile) : Except Error Lockfile :=
  .ok { lockfile with version := LOCKFILE_VERSION }

/-- The message of the too-old version error of `Lockfile::load`. -/
def lockfileTooOldMsg (v : Nat) : Str :=
  ("Lockfile version " ++ toString v ++ " is too old").toList

/-- The message of the too-new version error of `Lockfile::load`. -/
def lockfileTooNewMsg (v : Nat) : Str :=
  ("Lockfile version " ++ toString v ++ " is newer than supported").toList

/-- `Lockfile::load` from src/lock/lockfile.rs, starting from the
TOML-parsed record (file reading and TOML decoding happen before this
point in the Rust code): version range check, then migrate. -/
def Lockfile.loadParsed (lockfile : Lockfile) : Except Error Lockfile :=
  if lockfile.version < MIN_SUPPORTED_VERSION then
    .error (.configValidation (lockfileTooOldMsg lockfile.version))
  else if lockfile.version > MAX_SUPPORTED_VERSION then
    .error (.configValidation (lockfileTooNewMsg lockfile.version))
  else Lockfile.migrate lockfile

/-- `Lockfile::load_or_default` from src/lock/lockfile.rs: `none`
models an absent lockfile file. -/
def Lockfile.loadOrDefault (onDisk : Option Lockfile) : Except Error Lockfile :=
  match onDisk with
  | some lockfile => Lockfile.loadParsed lockfile
  | none => .ok Lockfile.new

/-- `Lockfile::get_package` from src/lock/lockfile.rs. -/
def Lockfile.getPackage (l : Lockfile) (id : Str) : Option LockedPackage :=
  l.packages.find? (fun p => p.id = id)

/-- `LockedPackage::get_version` from src/lock/lockfile.rs. -/
def LockedPackage.getVersion (p : LockedPackage) (version : Str) : Option LockedVersion :=
  p.versions.find? (fun v => v.version = version)

/-! ## SHA-256 and the manifest hash (src/lock/lockfile.rs) -/

/-- Truncation to a 32-bit word. -/
def w32 (x : Nat) : Nat := x % 4294967296

/-- 32-bit right rotation. -/
def rotr32 (n x : Nat) : Nat := w32 ((x >>> n) + ((x % (1 <<< n)) <<< (32 - n)))

/-- SHA-256 small sigma 0. -/
def ssig0 (x : Nat) : Nat := (rotr32 7 x) ^^^ (rotr32 18 x) ^^^ (x >>> 3)

/-- SHA-256 small sigma 1. -/
def ssig1 (x : Nat) : Nat := (rotr32 17 x) ^^^ (rotr32 19 x) ^^^ (x >>> 10)

/-- SHA-256 big sigma 0. -/
def bsig0 (x : Nat) : Nat := (rotr32 2 x) ^^^ (rotr32 13 x) ^^^ (rotr32 22 x)

/-- SHA-256 big sigma 1. -/
def bsig1 (x : Nat) : Nat := (rotr32 6 x) ^^^ (rotr32 11 x) ^^^ (rotr32 25 x)

/-- The SHA-256 round constants. -/
def sha256K : List Nat :=
  [1116352408, 1899447441, 3049323471, 3921009573, 961987163,
   1508970993, 2453635748, 2870763221, 3624381080, 310598401,
   607225278, 1426881987, 1925078388, 2162078206, 2614888103,
   3248222580, 3835390401, 4022224774, 264347078, 604807628,
   770255983, 1249150122, 1555081692, 1996064986, 2554220882,
   2821834349, 2952996808, 3210313671, 3336571891, 3584528711,
   113926993, 338241895, 666307205, 773529912, 1294757372,
   1396182291, 1695183700, 1986661051, 2177026350, 2456956037,
   2730485921, 2820302411, 3259730800, 3345764771, 3516065817,
   3600352804, 4094571909, 275423344, 430227734, 506948616,
   659060556, 883997877, 958139571, 1322822218, 1537002063,
   1747873779, 1955562222, 2024104815, 2227730452, 2361852424,
   2428436474, 2756734187, 3204031479, 3329325298]

/-- The SHA-256 initial state. -/
def sha256H0 : List Nat :=
  [1779033703, 3144134277, 1013904242, 2773480762, 1359893119,
   2600822924, 528734635, 1541459225]

/-- Big-endian word from four bytes. -/
def toWord (a b c d : Nat) : Nat := ((a * 256 + b) * 256 + c) * 256 + d

/-- Group bytes into big-endian 32-bit words. -/
def bytesToWords : List Nat → List Nat
  | a :: b :: c :: d :: rest => toWord a b c d :: bytesToWords rest
  | _ => []

/-- Extend a 16-word block to the 64-word message schedule. -/
def extendSchedule : Nat → List Nat → List Nat
  | 0, ws => ws
  | n + 1, ws =>
    let i := ws.length
    let v := w32 ((ws.getD (i - 16) 0) + ssig0 (ws.getD (i - 15) 0) +
                  (ws.getD (i - 7) 0) + ssig1 (ws.getD (i - 2) 0))
    extendSchedule n (ws ++ [v])

/-- One SHA-256 compression round; the state is `[a,b,c,d,e,f,g,h]`. -/
def sha256Round (s : List Nat) (kw : Nat) : List Nat :=
  match s with
  | [a, b, c, d, e, f, g, h] =>
    let t1 := w32 (h + bsig1 e + ((e &&& f) ^^^ ((4294967295 - e) &&& g)) + kw)
    let t2 := w32 (bsig0 a + ((a &&& b) ^^^ (a &&& c) ^^^ (b &&& c)))
    [w32 (t1 + t2), a, b, c, w32 (d + t1), e, f, g]
  | other => other

/-- Compress one 64-byte chunk into the running state. -/
def sha256Chunk (h : List Nat) (chunk : List Nat) : List Nat :=
  let ws := extendSchedule 48 (bytesToWords chunk)
  let kws := List.zipWith (fun k w => w32 (k + w)) sha256K ws
  let s := kws.foldl sha256Round h
  List.zipWith (fun x y => w32 (x + y)) h s

/-- Split a byte list into 64-byte chunks. -/
def chunks64 (bytes : List Nat) : List (List Nat) :=
  let n := (bytes.length + 63) / 64
  (List.range n).map (fun i => (bytes.drop (64 * i)).take 64)

/-- Big-endian bytes of `x`, `n` bytes wide. -/
def beBytes : Nat → Nat → List Nat
  | 0, _ => []
  | n + 1, x => (x / 256 ^ n) % 256 :: beBytes n x

/-- SHA-256 padding of a message. -/
def sha256Pad (msg : List Nat) : List Nat :=
  let padLen := (55 + 64 - msg.length % 64) % 64 + 1
  msg ++ 0x80 :: List.replicate (padLen - 1) 0 ++ beBytes 8 (8 * msg.length)

/-- SHA-256 of a byte list, as 32 digest bytes. -/
def sha256 (msg : List Nat) : List Nat :=
  let final := (chunks64 (sha256Pad msg)).foldl sha256Chunk sha256H0
  (final.map (beBytes 4)).flatten

/-- UTF-8 encoding of one character. -/
def utf8EncodeChar (c : Char) : List Nat :=
  let n := c.toNat
  if n < 128 then [n]
  else if n < 2048 then [192 + n / 64, 128 + n % 64]
  else if n < 65536 then [224 + n / 4096, 128 + (n / 64) % 64, 128 + n % 64]
  else [240 + n / 262144, 128 + (n / 4096) % 64, 128 + (n / 64) % 64, 128 + n % 64]

/-- UTF-8 encoding of a string. -/
def utf8Encode (s : Str) : List Nat :=
  (s.map utf8EncodeChar).flatten

/-- A lowercase hexadecimal digit. -/
def hexDigit (n : Nat) : Char :=
  if n < 10 then Char.ofNat (48 + n) else Char.ofNat (87 + n)

/-- Lowercase hexadecimal rendering of a byte list. -/
def hexOfBytes (bytes : List Nat) : Str :=
  (bytes.map (fun b => [hexDigit (b / 16), hexDigit (b % 16)])).flatten

/-- `compute_hash` from src/lock/lockfile.rs:
`sha256:` followed by the lowercase hex SHA-256 of the content bytes. -/
def computeHash (content : Str) : Str :=
  "sha256:".toList ++ hexOfBytes (sha256 (utf8Encode content))

/-! ## Two-file transaction recovery (src/services/manifest_lock_tx.rs) -/

/-- The transaction log record `ManifestLockTransaction`. -/
structure ManifestLockTransaction where
  old_manifest : Option Str
  old_lock : Option Str
  new_manifest : Str
  new_lock : Str
deriving DecidableEq, Repr

/-- The on-disk state that `recover_manifest_lock_transaction` reads
and writes: the manifest file contents, the lockfile contents (`none`
models an absent file) and the parsed transaction log if the log file
exists. -/
structure TxDisk where
  manifest : Option Str
  lockfile : Option Str
  txn : Option ManifestLockTransaction
deriving DecidableEq, Repr

/-- `transaction_path` from src/services/manifest_lock_tx.rs:
`config_path.with_extension("txn")`.  The model replaces the extension
of the final path segment, or appends one when none is present. -/
def transactionPath (configPath : Str) : Str :=
  let segs := splitOnChar '/' configPath
  let last := segs.getLastD []
  let stem :=
    if last.contains '.' then List.intercalate ['.'] (splitOnChar '.' last).dropLast
    else last
  List.intercalate ['/'] (segs.dropLast ++ [stem ++ ".txn".toList])

/-- The message of the unrecoverable-state error of
`recover_manifest_lock_transaction`, naming the transaction log path. -/
def ambiguousTxMsg (txPath : Str) : Str :=
  "Found unresolved manifest/lock transaction ".toList ++ txPath ++
  ", but current files do not match a recoverable state. Please inspect files and remove the transaction file manually.".toList

/-- The byte-for-byte comparison of an observed optional file content
with an optional recorded content, as `recover_manifest_lock_transaction`
performs it for the `*_is_old` flags: an absent file matches an absent
record. -/
def optionContentIs (current old : Option Str) : Bool :=
  match current, old with
  | none, none => true
  | some c, some o => c = o
  | _, _ => false

/-- `recover_manifest_lock_transaction` from
src/services/manifest_lock_tx.rs.  The result pairs the disk state
after the call with the error, if any; the Rust error path performs no
writes, so on error the disk state is returned unchanged. -/
def recoverManifestLockTransaction (configPath : Str) (d : TxDisk) :
    TxDisk × Option Error :=
  match d.txn with
  | none => (d, none)
  | some tx =>
    let manifest_is_old : Bool := optionContentIs d.manifest tx.old_manifest
    let manifest_is_new : Bool := d.manifest = some tx.new_manifest
    let lock_is_old : Bool := optionContentIs d.lockfile tx.old_lock
    let lock_is_new : Bool := d.lockfile = some tx.new_lock
    if manifest_is_new && lock_is_new then
      ({ d with txn := none }, none)
    else if manifest_is_old && lock_is_old then
      ({ d with txn := none }, none)
    else if manifest_is_new && lock_is_old then
      ({ manifest := tx.old_manifest, lockfile := tx.old_lock, txn := none }, none)
    else
      (d, some (.configValidation (ambiguousTxMsg (transactionPath configPath))))

/-! ## Manifest hash gate (src/lock/lockfile.rs, src/services/hash_checker.rs) -/

/-- `HashCheckResult` from src/services/hash_checker.rs. -/
structure HashCheckResult where
  manifest : Manifest
  lockfile : Lockfile
  current_hash : Str
deriving DecidableEq, Repr

/-! ## Fetch pipeline concurrency bounds (src/services/package_fetcher.rs) -/

/-- Rust `Ord::clamp`: `if self < min { min } else if self > max { max } else { self }`. -/
def clampNat (x lo hi : Nat) : Nat :=
  if x < lo then lo else if x > hi then hi else x

/-- The package-level parallelism bound computed by `PackageFetcher::fetch`:
`max_concurrent.clamp(1, manifest.packages.len())`. -/
def packageConcurrency (maxConcurrent nPackages : Nat) : Nat :=
  clampNat maxConcurrent 1 nPackages

/-- The per-package download bound computed by `PackageFetcher::fetch`:
`(max_concurrent / package_concurrency).max(1)`. -/
def perPackageDownloadConcurrency (maxConcurrent pkgConcurrency : Nat) : Nat :=
  max (maxConcurrent / pkgConcurrency) 1

/-! ## URL liveness check (src/infra/http.rs) -/

/-- The outcome of a single HTTP request: a status code, or a
transport-level error. -/
inductive HttpOutcome where
  | status (code : Nat)
  | transportError
deriving DecidableEq, Repr

/-- reqwest `StatusCode::is_success`: 2xx. -/
def statusIsSuccess (code : Nat) : Bool := 200 ≤ code && code ≤ 299

/-- reqwest `StatusCode::is_client_error`: 4xx. -/
def statusIsClientError (code : Nat) : Bool := 400 ≤ code && code ≤ 499

/-- `HttpClient::should_fallback_to_get`: 403, 405 or 501. -/
def shouldFallbackToGet (code : Nat) : Bool :=
  code = 403 || code = 405 || code = 501

/-- `HttpClient::check_url_exists_with_get` from src/infra/http.rs:
the range-limited GET fallback.  `some b` is a definitive verdict,
`none` asks the caller to retry. -/
def checkUrlExistsWithGet (response : HttpOutcome) : Option Bool :=
  match response with
  | .status code =>
    if statusIsSuccess code then some true
    else if code = 429 then none
    else if statusIsClientError code then some false
    else none
  | .transportError => none

/-- The retry loop of `HttpClient::check_url_exists`, instrumented
with the number of HEAD requests sent.  `head i` and `get i` are the
network responses the i-th attempt would observe; `fuel` counts the
remaining loop iterations (`max_retries + 1` at the start). -/
def checkUrlAux (head get : Nat → HttpOutcome) : Nat → Nat → Bool × Nat
  | _, 0 => (false, 0)
  | attempt, fuel + 1 =>
    let next := checkUrlAux head get (attempt + 1) fuel
    match head attempt with
    | .status code =>
      if statusIsSuccess code then (true, 1)
      else if shouldFallbackToGet code then
        match checkUrlExistsWithGet (get attempt) with
        | some b => (b, 1)
        | none => (next.1, next.2 + 1)
      else if code = 429 then (next.1, next.2 + 1)
      else if statusIsClientError code then (false, 1)
      else (next.1, next.2 + 1)
    | .transportError => (next.1, next.2 + 1)

/-- `HttpClient::check_url_exists` from src/infra/http.rs: the loop
runs `for attempt in 0..=max_retries` and falls through to `false`. -/
def checkUrlExists (head get : Nat → HttpOutcome) (maxRetries : Nat) : Bool :=
  (checkUrlAux head get 0 (maxRetries + 1)).1

/-- The number of HEAD attempts `check_url_exists` performs. -/
def checkUrlAttempts (head get : Nat → HttpOutcome) (maxRetries : Nat) : Nat :=
  (checkUrlAux head get 0 (maxRetries + 1)).2

/-- The per-attempt decision table as the specification words it
(§4.6): 2xx HEAD is valid; 403/405/501 switch to the GET fallback
where 2xx is valid, 4xx other than 429 invalid, and 429/5xx/transport
retry; HEAD 4xx other than the fallback statuses and 429 is invalid
with no retry; HEAD 429, 5xx and transport errors retry.  `none`
means the attempt is retried. -/
def attemptDecisionSpec (headResp getResp : HttpOutcome) : Option Bool :=
  match headResp with
  | .status code =>
    if statusIsSuccess code then some true
    else if shouldFallbackToGet code then
      match getResp with
      | .status g =>
        if statusIsSuccess g then some true
        else if g = 429 then none
        else if statusIsClientError g then some false
        else none
      | .transportError => none
    else if code = 429 then none
    else if statusIsClientError code then some false
    else none
  | .transportError => none

/-! ## Fetch pipeline: releases, version merge, reconciliation
(src/domain/release.rs, src/services/package_fetcher.rs) -/

/-- `Release` from src/domain/release.rs. -/
structure Release where
  tag : Str
  asset_url : Option Str
deriving DecidableEq, Repr

/-- `Release::version`: the tag with a single leading `v` stripped. -/
def Release.version (r : Release) : Str :=
  match r.tag with
  | 'v' :: rest => rest
  | _ => r.tag

/-- The `release_order` list of `PackageFetcher::fetch_package`: the
versions of the upstream releases that carry an asset URL, in listing
order. -/
def releaseOrder (releases : List Release) : List Str :=
  (releases.filter (fun r => r.asset_url.isSome)).map Release.version

/-- Rust `Vec::position` followed by `Vec::remove`: the first element
satisfying `p` together with the list without it. -/
def extractFirst (p : LockedVersion → Bool) :
    List LockedVersion → Option (LockedVersion × List LockedVersion)
  | [] => none
  | x :: xs =>
    if p x then some (x, xs)
    else
      match extractFirst p xs with
      | some (a, rest) => some (a, x :: rest)
      | none => none

/-- The merge loop of `PackageFetcher::fetch_package` (the first
`for version_str in &release_order` loop): per upstream version, take
the newly fetched entry, removing it from `fetched`, else reuse the
existing locked entry, else skip. -/
def mergeByReleaseOrder (existing : LockedPackage) :
    List Str → List LockedVersion → List LockedVersion
  | [], _ => []
  | vs :: rest, fetched =>
    match extractFirst (fun v => v.version = vs) fetched with
    | some (v, fetchedRest) => v :: mergeByReleaseOrder existing rest fetchedRest
    | none =>
      match existing.getVersion vs with
      | some v => v :: mergeByReleaseOrder existing rest fetched
      | none => mergeByReleaseOrder existing rest fetched

/-- The retention loop of `PackageFetcher::fetch_package`: append the
previously locked versions whose version string was not seen yet,
growing the seen set. -/
def appendMissingExisting (seen : List Str) : List LockedVersion → List LockedVersion
  | [] => []
  | v :: rest =>
    if seen.contains v.version then appendMissingExisting seen rest
    else v :: appendMissingExisting (v.version :: seen) rest

/-- The `all_versions` computation of `PackageFetcher::fetch_package`
(src/services/package_fetcher.rs lines 442-481): keep the existing
versions when no upstream release is fetchable, otherwise merge by
release order and append the no-longer-listed existing versions. -/
def mergeLockedVersions (releases : List Release) (fetched : List LockedVersion)
    (existing : LockedPackage) : List LockedVersion :=
  let release_order := releaseOrder releases
  if release_order.isEmpty then existing.versions
  else
    let merged := mergeByReleaseOrder existing release_order fetched
    merged ++ appendMissingExisting (merged.map (fun v => v.version)) existing.versions

/-- The `manifest_order` map of `PackageFetcher::reconcile_lockfile`,
kept as insertion-ordered pairs; `hashMapGet` below models `HashMap`
lookup (a later insert of the same key wins). -/
def manifestOrderPairs (manifest : Manifest) : List (Str × Nat) :=
  manifest.packages.enum.map (fun p => (p.2.id, p.1))

/-- `HashMap::get` over pairs built by successive inserts. -/
def hashMapGet (pairs : List (Str × Nat)) (id : Str) : Option Nat :=
  pairs.reverse.lookup id

/-- Rust `usize::MAX`, the sort key of ids absent from the manifest. -/
def USIZE_MAX : Nat := 18446744073709551615

/-- `Lockfile::get_or_insert_package` followed by the repository-change
check of `PackageFetcher::reconcile_lockfile`: update in place the
first entry carrying the package id (clearing its versions when the
repository coordinate changed), or append a fresh empty entry when no
entry carries the id. -/
def getOrInsertFix (p : Package) : List LockedPackage → List LockedPackage
  | [] => [{ id := p.id, repository := p.repository, versions := [] }]
  | q :: rest =>
    if q.id = p.id then
      (if q.repository ≠ p.repository then
        { q with repository := p.repository, versions := [] }
      else q) :: rest
    else q :: getOrInsertFix p rest

/-- The reconciled lockfile entry for a manifest package, given the
entry previously locked under its id: the previous entry when the
repository coordinate is unchanged, otherwise (or when the id was not
locked) an entry with the manifest coordinate and no versions. -/
def applyFix (p : Package) : Option LockedPackage → LockedPackage
  | some old =>
    if old.repository = p.repository then old
    else { id := p.id, repository := p.repository, versions := [] }
  | none => { id := p.id, repository := p.repository, versions := [] }

/-- `PackageFetcher::reconcile_lockfile` from
src/services/package_fetcher.rs: retain the manifest's packages,
insert missing ones, fix changed repositories, and sort to manifest
order (`sort_by_key` is a stable sort; the keys here). -/
def reconcileLockfile (manifest : Manifest) (lockfile : Lockfile) : Lockfile :=
  let order := manifestOrderPairs manifest
  let retained := lockfile.packages.filter (fun q => (hashMapGet order q.id).isSome)
  let inserted := manifest.packages.foldl (fun acc p => getOrInsertFix p acc) retained
  let sorted := inserted.mergeSort (fun a b =>
    decide ((hashMapGet order a.id).getD USIZE_MAX ≤ (hashMapGet order b.id).getD USIZE_MAX))
  { lockfile with packages := sorted }

/-- The value of a successful per-package outcome, used to recover the
underlying results from a completion-order interleaving. -/
def exceptOkValue : Except Error PackageFetchResult → Option PackageFetchResult
  | .ok r => some r
  | .error _ => none

/-- The reconciled entry determined by an id alone: the fixed entry of
the first manifest package carrying the id (the fallback branch is
unreachable for ids that occur in the manifest). -/
def reconciledEntryById (manifest : Manifest) (lockfile : Lockfile) (idv : Str) :
    LockedPackage :=
  match manifest.packages.find? (fun pp => pp.id = idv) with
  | some p => applyFix p (lockfile.packages.find? (fun r => r.id = p.id))
  | none => { id := idv, repository := { owner := [], repo := [] }, versions := [] }

/-- `PackageFetchResult` from src/services/package_fetcher.rs. -/
structure PackageFetchResult where
  package_id : Str
  versions : List LockedVersion
  existing_count : Nat
  new_count : Nat
  failed_count : Nat
deriving DecidableEq, Repr

/-- In-place update of the versions of the first package with the
given id, the model of `get_package_mut` plus the assignment
`locked_pkg.versions = outcome.versions`. -/
def setVersionsFirst (id : Str) (vs : List LockedVersion) :
    List LockedPackage → List LockedPackage
  | [] => []
  | q :: rest =>
    if q.id = id then { q with versions := vs } :: rest
    else q :: setVersionsFirst id vs rest

/-- The message of the missing-package error of `PackageFetcher::fetch`. -/
def missingAfterReconcileMsg (id : Str) : Str :=
  "Lockfile missing package after reconciliation: ".toList ++ id

/-- The result-collection loop of `PackageFetcher::fetch`: walk the
sorted outcomes, propagate per-package errors, write each package's
merged versions into the lockfile and accumulate the failure count. -/
def applyOutcomes : Lockfile → Nat → List (Except Error PackageFetchResult) →
    Except Error (Lockfile × Nat)
  | lockfile, totalFailed, [] => .ok (lockfile, totalFailed)
  | _, _, .error e :: _ => .error e
  | lockfile, totalFailed, .ok r :: rest =>
    match lockfile.getPackage r.package_id with
    | none => .error (.configValidation (missingAfterReconcileMsg r.package_id))
    | some _ =>
      applyOutcomes
        { lockfile with packages := setVersionsFirst r.package_id r.versions lockfile.packages }
        (totalFailed + r.failed_count) rest

/-- `outcomes.sort_by_key(|(index, _)| *index)` from
`PackageFetcher::fetch`. -/
def sortOutcomesByIdx (outcomes : List (Nat × Except Error PackageFetchResult)) :
    List (Nat × Except Error PackageFetchResult) :=
  outcomes.mergeSort (fun a b => decide (a.1 ≤ b.1))

/-- `PackageFetcher::fetch` from src/services/package_fetcher.rs.  The
per-package work is injected as `outcomes`: the indexed per-package
results in the completion order the bounded-concurrency combinator
happened to produce. -/
def PackageFetcher.fetch (manifest : Manifest) (lockfile : Lockfile)
    (outcomes : List (Nat × Except Error PackageFetchResult)) : Except Error Lockfile :=
  let reconciled := reconcileLockfile manifest lockfile
  if manifest.packages.isEmpty then .ok reconciled
  else
    match applyOutcomes reconciled 0 ((sortOutcomesByIdx outcomes).map Prod.snd) with
    | .error e => .error e
    | .ok (lockfile, totalFailed) =>
      if totalFailed > 0 then .error (.fetchPartialFailure totalFailed)
      else .ok lockfile

/-- A file write the fetch command can perform: the single-file atomic
lockfile save (`Lockfile::save`), or a two-file transaction commit
(`save_manifest_and_lock`) - which the fetch command never uses. -/
inductive WriteOp where
  | saveLockfile (content : Lockfile)
  | txnCommit (manifest : Manifest) (lockfile : Lockfile)
deriving DecidableEq, Repr

/-- The fetch command `execute` from src/commands/fetch.rs, after the
load gate: optional wipe, run the fetcher, and on success overwrite
`manifest_hash` with the gate's hash and save the lockfile.  The
second component records the file writes performed. -/
def executeFetchCommand (manifest : Manifest) (lockfile : Lockfile) (current_hash : Str)
    (wipe : Bool) (outcomes : List (Nat × Except Error PackageFetchResult)) :
    Except Error Lockfile × List WriteOp :=
  let start :=
    if wipe then
      { lockfile with packages := lockfile.packages.map (fun p => { p with versions := [] }) }
    else lockfile
  match PackageFetcher.fetch manifest start outcomes with
  | .error e => (.error e, [])
  | .ok fetched =>
    let final := { fetched with manifest_hash := some current_hash }
    (.ok final, [.saveLockfile final])

/-! ## TOML model for the manifest

Model of the `toml` crate restricted to the manifest schema: basic and
literal strings, comments, blank lines, `[table]` and `[[array-table]]`
headers, and `key = "string"` pairs.  `toml::to_string` is modelled by
the basic-string serializer and `toml::to_string_pretty` by the
serializer preferring literal strings; both emit the same line
structure. -/

/-- A single-quote character (written by code point to keep source
hygiene). -/
def squote : Char := Char.ofNat 39

/-- An ASCII control character (or delete). -/
def isControlChar (c : Char) : Bool := c.toNat < 32 || c.toNat = 127

/-- TOML basic-string escaping of one character. -/
def basicEscapeChar (c : Char) : Str :=
  if c = '"' then ['\\', '"']
  else if c = '\\' then ['\\', '\\']
  else if c = '\n' then ['\\', 'n']
  else if c = '\t' then ['\\', 't']
  else if c = '\r' then ['\\', 'r']
  else [c]

/-- A TOML basic string: double quotes around the escaped content. -/
def basicStringRepr (s : Str) : Str :=
  '"' :: (s.map basicEscapeChar).flatten ++ ['"']

/-- Whether a string may be rendered as a TOML literal string. -/
def canUseLiteralString (s : Str) : Bool :=
  s.all (fun c => !(c = squote) && !(isControlChar c))

/-- A TOML literal string: single quotes around the raw content. -/
def literalStringRepr (s : Str) : Str :=
  squote :: s ++ [squote]

/-- The pretty serializer's string rendering: a literal string when
possible, else a basic string. -/
def prettyStringRepr (s : Str) : Str :=
  if canUseLiteralString s then literalStringRepr s else basicStringRepr s

/-- A serialized `key = value` line. -/
def kvLineOut (key : Str) (valueRepr : Str) : Str :=
  key ++ ' ' :: '=' :: ' ' :: valueRepr

/-- The serialized lines of a manifest, for a given string rendering. -/
def manifestLinesWith (strRepr : Str → Str) (m : Manifest) : List Str :=
  ("[vpm]".toList ::
   kvLineOut "id".toList (strRepr m.vpm.id) ::
   kvLineOut "name".toList (strRepr m.vpm.name) ::
   kvLineOut "author".toList (strRepr m.vpm.author) ::
   kvLineOut "url".toList (strRepr m.vpm.url) :: []) ++
  (m.packages.map (fun p =>
    [([] : Str), "[[packages]]".toList,
     kvLineOut "id".toList (strRepr p.id),
     kvLineOut "repository".toList (strRepr p.repository.display)])).flatten

/-- Join lines with newlines, with a trailing newline. -/
def joinLines (lines : List Str) : Str :=
  List.intercalate ['\n'] lines ++ ['\n']

/-- Model of `toml::to_string` on a manifest (the hash path). -/
def serializeManifest (m : Manifest) : Str :=
  joinLines (manifestLinesWith basicStringRepr m)

/-- Model of `toml::to_string_pretty` on a manifest (the save path). -/
def serializeManifestPretty (m : Manifest) : Str :=
  joinLines (manifestLinesWith prettyStringRepr m)

/-- `Manifest::save` from src/config/manifest.rs: the file contents
written (pretty TOML). -/
def Manifest.save (m : Manifest) : Str :=
  serializeManifestPretty m

/-- A lexed TOML line. -/
inductive TomlLine where
  | blank
  | table (name : Str)
  | arrayTable (name : Str)
  | kv (key : Str) (value : Str)
deriving DecidableEq, Repr

/-- TOML line whitespace. -/
def isTomlWs (c : Char) : Bool := c = ' ' || c = '\t'

/-- Trim line whitespace on both ends. -/
def trimToml (s : Str) : Str :=
  ((s.dropWhile isTomlWs).reverse.dropWhile isTomlWs).reverse

/-- Decode one basic-string escape. -/
def unescapeChar (c : Char) : Option Char :=
  if c = '"' then some '"'
  else if c = '\\' then some '\\'
  else if c = 'n' then some '\n'
  else if c = 't' then some '\t'
  else if c = 'r' then some '\r'
  else none

/-- Parse the body of a basic string: the content up to the closing
double quote, which must end the value. -/
def parseBasicBody : Str → Option Str
  | [] => none
  | '"' :: rest => if rest.isEmpty then some [] else none
  | '\\' :: e :: rest =>
    match unescapeChar e, parseBasicBody rest with
    | some c, some s => some (c :: s)
    | _, _ => none
  | c :: rest =>
    match parseBasicBody rest with
    | some s => some (c :: s)
    | none => none

/-- Parse the body of a literal string: raw content up to the closing
single quote, which must end the value. -/
def parseLiteralBody : Str → Option Str
  | [] => none
  | c :: rest =>
    if c = squote then (if rest.isEmpty then some [] else none)
    else
      match parseLiteralBody rest with
      | some s => some (c :: s)
      | none => none

/-- Parse a string value (basic or literal). -/
def parseStringValue (v : Str) : Option Str :=
  match v with
  | '"' :: rest => parseBasicBody rest
  | c :: rest => if c = squote then parseLiteralBody rest else none
  | [] => none

/-- Parse the remainder of a `[name]` header after the opening bracket. -/
def parseTableRest (rest : Str) : Option Str :=
  let name := rest.takeWhile (fun c => c ≠ ']')
  if rest.drop name.length = [']'] then some (trimToml name) else none

/-- Parse the remainder of a `[[name]]` header after the two opening
brackets. -/
def parseArrayTableRest (rest : Str) : Option Str :=
  let name := rest.takeWhile (fun c => c ≠ ']')
  if rest.drop name.length = [']', ']'] then some (trimToml name) else none

/-- Parse a `key = "value"` line. -/
def parseKvRest (t : Str) : Option TomlLine :=
  let keyPart := t.takeWhile (fun c => c ≠ '=')
  match t.drop keyPart.length with
  | '=' :: valuePart =>
    let key := trimToml keyPart
    if key.isEmpty then none
    else
      match parseStringValue (trimToml valuePart) with
      | some v => some (.kv key v)
      | none => none
  | _ => none

/-- Lex one line of a TOML document. -/
def parseTomlLine (line : Str) : Option TomlLine :=
  match trimToml line with
  | [] => some .blank
  | '#' :: _ => some .blank
  | '[' :: '[' :: rest => (parseArrayTableRest rest).map .arrayTable
  | '[' :: rest => (parseTableRest rest).map .table
  | t => parseKvRest t

/-- A parsed TOML section: a table or array-of-tables header with its
key-value pairs. -/
structure TomlSection where
  isArray : Bool
  name : Str
  kvs : List (Str × Str)
deriving DecidableEq, Repr

/-- Collect the lines of the current section and the following ones. -/
def groupSectionsAux (isArr : Bool) (name : Str) (acc : List (Str × Str)) :
    List TomlLine → Option (List TomlSection)
  | [] => some [⟨isArr, name, acc.reverse⟩]
  | .kv k v :: rest => groupSectionsAux isArr name ((k, v) :: acc) rest
  | .table n :: rest =>
    (groupSectionsAux false n [] rest).map (fun ss => ⟨isArr, name, acc.reverse⟩ :: ss)
  | .arrayTable n :: rest =>
    (groupSectionsAux true n [] rest).map (fun ss => ⟨isArr, name, acc.reverse⟩ :: ss)
  | .blank :: _ => none

/-- Group non-blank lexed lines into sections; key-value pairs before
the first header belong to the top-level table, whose keys are not
part of the manifest schema and are ignored. -/
def groupSections : List TomlLine → Option (List TomlSection)
  | [] => some []
  | .kv _ _ :: rest => groupSections rest
  | .blank :: _ => none
  | .table n :: rest => groupSectionsAux false n [] rest
  | .arrayTable n :: rest => groupSectionsAux true n [] rest

/-- Look a key up in a section, rejecting duplicate keys (TOML
documents with a duplicated key are invalid). -/
def lookupUniqueKv (kvs : List (Str × Str)) (key : Str) : Option Str :=
  match kvs.filter (fun kv => kv.1 = key) with
  | [kv] => some kv.2
  | _ => none

/-- Deserialize the `[vpm]` section. -/
def buildVpm (kvs : List (Str × Str)) : Option Vpm := do
  let id ← lookupUniqueKv kvs "id".toList
  let name ← lookupUniqueKv kvs "name".toList
  let author ← lookupUniqueKv kvs "author".toList
  let url ← lookupUniqueKv kvs "url".toList
  pure ⟨id, name, author, url⟩

/-- Deserialize one `[[packages]]` section. -/
def buildPackage (kvs : List (Str × Str)) : Option Package := do
  let id ← lookupUniqueKv kvs "id".toList
  let repoStr ← lookupUniqueKv kvs "repository".toList
  let repo ← Repository.parse repoStr
  pure ⟨id, repo⟩

/-- Whether a lexed line carries content (is not blank). -/
def tomlLineIsContent (t : TomlLine) : Bool :=
  match t with
  | .blank => false
  | _ => true

/-- The parse of the unique `[vpm]` table (serde rejects a missing or
ambiguous one; sections outside the schema are ignored). -/
def selectVpmSection (sections : List TomlSection) : Option Vpm :=
  match sections.filter (fun s => !s.isArray && s.name = "vpm".toList) with
  | [s] => buildVpm s.kvs
  | _ => none

/-- The parse of the `[[packages]]` array of tables. -/
def selectPackageSections (sections : List TomlSection) : Option (List Package) :=
  (sections.filter (fun s => s.isArray && s.name = "packages".toList)).mapM
    (fun s => buildPackage s.kvs)

/-- Model of `toml::from_str` for the manifest: lex, group, build. -/
def parseManifestToml (content : Str) : Option Manifest := do
  let toks ← (splitOnChar '\n' content).mapM parseTomlLine
  let sections ← groupSections (toks.filter tomlLineIsContent)
  let vpm ← selectVpmSection sections
  let packages ← selectPackageSections sections
  pure ⟨vpm, packages⟩

/-! ## Manifest validation (src/config/validation.rs, src/config/manifest.rs) -/

/-- `validate_reverse_domain` from src/config/validation.rs. -/
def validateReverseDomain (id : Str) : Except Error Unit :=
  if id.isEmpty then .error (.invalidPackageId id)
  else
    let parts := splitOnChar '.' id
    if parts.length < 2 then .error (.invalidPackageId id)
    else if parts.all (fun part =>
      !part.isEmpty && part.all (fun c => c.isLower || c.isDigit || c = '-' || c = '_'))
    then .ok ()
    else .error (.invalidPackageId id)

/-- `validate_package_id_prefix` from src/config/validation.rs: the
package id must start with the VPM id followed by a dot. -/
def validatePackageIdHasVpmRoot (packageId vpmId : Str) : Except Error Unit :=
  if List.isPrefixOf (vpmId ++ ['.']) packageId then .ok ()
  else .error (.invalidPackageId packageId)

/-- `validate_url` from src/config/validation.rs, modelling
`reqwest::Url::parse` by the scheme and host checks the function
performs: the URL must start with `http://` or `https://` and carry a
non-empty host. -/
def validateUrl (url : Str) : Except Error Unit :=
  if url.isEmpty then .error (.invalidUrl url "URL is empty".toList)
  else if List.isPrefixOf "https://".toList url || List.isPrefixOf "http://".toList url then
    let afterScheme :=
      if List.isPrefixOf "https://".toList url then url.drop 8 else url.drop 7
    let host := afterScheme.takeWhile (fun c => c ≠ '/')
    if host.isEmpty then .error (.invalidUrl url "URL must include a host".toList)
    else .ok ()
  else .error (.invalidUrl url "URL must start with http or https".toList)

/-- `Vpm::validate` from src/config/manifest.rs. -/
def Vpm.validate (v : Vpm) : Except Error Unit :=
  if v.id.isEmpty then .error (.configValidation "VPM id is empty".toList)
  else
    match validateReverseDomain v.id with
    | .error e => .error e
    | .ok _ =>
      if v.name.isEmpty then .error (.configValidation "VPM name is empty".toList)
      else if v.author.isEmpty then .error (.configValidation "VPM author is empty".toList)
      else validateUrl v.url

/-- `Package::validate` from src/config/manifest.rs. -/
def Package.validate (p : Package) : Except Error Unit :=
  if p.id.isEmpty then .error (.configValidation "Package id is empty".toList)
  else validateReverseDomain p.id

/-- The package loop of `Manifest::validate`, carrying the set of ids
seen so far. -/
def validatePackagesLoop (vpmId : Str) (seen : List Str) :
    List Package → Except Error Unit
  | [] => .ok ()
  | p :: rest =>
    match p.validate with
    | .error e => .error e
    | .ok _ =>
      match validatePackageIdHasVpmRoot p.id vpmId with
      | .error e => .error e
      | .ok _ =>
        if seen.contains p.id then
          .error (.configValidation ("Duplicate package ID: ".toList ++ p.id))
        else validatePackagesLoop vpmId (p.id :: seen) rest

/-- `Manifest::validate` from src/config/manifest.rs. -/
def Manifest.validate (m : Manifest) : Except Error Unit :=
  match m.vpm.validate with
  | .error e => .error e
  | .ok _ => validatePackagesLoop m.vpm.id [] m.packages

/-- `Manifest::load` from src/config/manifest.rs, starting from the
file contents: TOML parse, then validation. -/
def Manifest.load (content : Str) : Except Error Manifest :=
  match parseManifestToml content with
  | none => .error (.tomlParse "TOML parse error".toList)
  | some manifest =>
    match manifest.validate with
    | .error e => .error e
    | .ok _ => .ok manifest

/-! ## Manifest hashing and the load gate
(src/lock/lockfile.rs, src/services/hash_checker.rs) -/

/-- `compute_manifest_hash_from_manifest` from src/lock/lockfile.rs:
hash of the canonical (non-pretty) serialization of the manifest
value. -/
def computeManifestHashFromManifest (m : Manifest) : Str :=
  computeHash (serializeManifest m)

/-- `compute_manifest_hash` from src/lock/lockfile.rs, starting from
the file contents: TOML parse (without validation), then the
value-level hash. -/
def computeManifestHashFile (content : Str) : Except Error Str :=
  match parseManifestToml content with
  | none => .error (.tomlParse "TOML parse error".toList)
  | some manifest => .ok (computeManifestHashFromManifest manifest)

/-- `check_and_load` from src/services/hash_checker.rs, starting from
the manifest file contents and the TOML-parsed lockfile record (`none`
models an absent lockfile file).  The transaction-recovery pre-step is
a no-op here: the model covers the post-recovery disk state. -/
def checkAndLoad (configContent : Str) (lockOnDisk : Option Lockfile) :
    Except Error HashCheckResult :=
  match Manifest.load configContent with
  | .error e => .error e
  | .ok manifest =>
    let current_hash := computeManifestHashFromManifest manifest
    match Lockfile.loadOrDefault lockOnDisk with
    | .error e => .error e
    | .ok lockfile =>
      match lockfile.manifest_hash with
      | some stored =>
        if stored ≠ current_hash then .error .manifestHashMismatch
        else .ok ⟨manifest, lockfile, current_hash⟩
      | none => .ok ⟨manifest, lockfile, current_hash⟩

/-! ## Example inputs used by witnesses and counterexamples -/

/-- An example repository coordinate. -/
def exampleRepository : Repository :=
  { owner := "owner".toList, repo := "repo".toList }

/-- A second example repository coordinate. -/
def exampleRepository2 : Repository :=
  { owner := "owner2".toList, repo := "repo2".toList }

/-- An example manifest package. -/
def examplePackage : Package :=
  { id := "com.example.vpm.pkg".toList, repository := exampleRepository }

/-- An example `[vpm]` section. -/
def exampleVpm : Vpm :=
  { id := "com.example.vpm".toList, name := "Example VPM".toList,
    author := "Test Author".toList, url := "https://example.com/vpm.json".toList }

/-- An example manifest. -/
def exampleManifest : Manifest :=
  { vpm := exampleVpm, packages := [examplePackage] }

/-- The pretty-serialized contents of the example manifest. -/
def exampleManifestContent : Str :=
  serializeManifestPretty exampleManifest

/-- An example locked version with the given version and tag strings. -/
def exampleLocked (version tag : String) : LockedVersion :=
  { version := version.toList, tag := tag.toList,
    url := "https://example.com/pkg.json".toList,
    hash := "sha256:0".toList, manifest_version := version.toList }

/-! # Theorems -/

/-- C7: for every manifest with a non-empty packages list and every
`max_concurrent` in `[1, 50]`, the fetch pipeline computes the
package-level bound `P = min(max_concurrent, |packages|)` and the
per-package download bound `D = max(max_concurrent / P, 1)` (integer
division), and `P * D ≤ max_concurrent`. -/
theorem fetch_concurrency_bounds (manifest : Manifest) (maxConcurrent : Nat)
    (h1 : 1 ≤ maxConcurrent) (h2 : maxConcurrent ≤ 50)
    (h3 : manifest.packages ≠ []) :
    packageConcurrency maxConcurrent manifest.packages.length
      = min maxConcurrent manifest.packages.length ∧
    perPackageDownloadConcurrency maxConcurrent
        (packageConcurrency maxConcurrent manifest.packages.length)
      = max (maxConcurrent / min maxConcurrent manifest.packages.length) 1 ∧
    packageConcurrency maxConcurrent manifest.packages.length *
      perPackageDownloadConcurrency maxConcurrent
        (packageConcurrency maxConcurrent manifest.packages.length)
      ≤ maxConcurrent := by
  have hn : 0 < manifest.packages.length := List.length_pos.mpr h3
  set n := manifest.packages.length with hndef
  have hP : packageConcurrency maxConcurrent n = min maxConcurrent n := by
    unfold packageConcurrency clampNat
    split
    · omega
    · split
      · omega
      · omega
  refine ⟨hP, by rw [hP]; rfl, ?_⟩
  rw [hP]
  have hPle : min maxConcurrent n ≤ maxConcurrent := Nat.min_le_left _ _
  have hPpos : 0 < min maxConcurrent n := lt_min h1 hn
  have hdiv : 1 ≤ maxConcurrent / min maxConcurrent n :=
    (Nat.one_le_div_iff hPpos).mpr hPle
  unfold perPackageDownloadConcurrency
  rw [Nat.max_eq_left hdiv]
  calc min maxConcurrent n * (maxConcurrent / min maxConcurrent n)
      = maxConcurrent / min maxConcurrent n * min maxConcurrent n := Nat.mul_comm _ _
    _ ≤ maxConcurrent := Nat.div_mul_le_self _ _

/-- Witness for C7 at `max_concurrent = 4` and one package. -/
theorem fetch_concurrency_bounds_witness :
    packageConcurrency 4 exampleManifest.packages.length
      = min 4 exampleManifest.packages.length ∧
    perPackageDownloadConcurrency 4
        (packageConcurrency 4 exampleManifest.packages.length)
      = max (4 / min 4 exampleManifest.packages.length) 1 ∧
    packageConcurrency 4 exampleManifest.packages.length *
      perPackageDownloadConcurrency 4
        (packageConcurrency 4 exampleManifest.packages.length) ≤ 4 :=
  fetch_concurrency_bounds exampleManifest 4 (by decide) (by decide) (by decide)

/-- C10: every lockfile successfully returned by `Lockfile::load` has
`version = 1` (the current lockfile version): after the range check,
the migrate step unconditionally rewrites the version field, so a
re-save writes `version = 1`. -/
theorem lockfile_load_version_is_current (raw lf : Lockfile)
    (h : Lockfile.loadParsed raw = .ok lf) :
    lf.version = LOCKFILE_VERSION ∧ lf = { raw with version := LOCKFILE_VERSION } := by
  unfold Lockfile.loadParsed at h
  split at h
  · exact absurd h (by simp)
  · split at h
    · exact absurd h (by simp)
    · unfold Lockfile.migrate at h
      cases h
      exact ⟨rfl, rfl⟩

/-- Witness for C10: loading a version-1 lockfile record. -/
theorem lockfile_load_version_is_current_witness :
    Lockfile.loadParsed { version := 1, manifest_hash := none, packages := [] }
        = .ok Lockfile.new ∧
    Lockfile.new.version = LOCKFILE_VERSION :=
  ⟨rfl,
   (lockfile_load_version_is_current
     { version := 1, manifest_hash := none, packages := [] } Lockfile.new rfl).1⟩

/-- `optionContentIs` is the Option equality test. -/
theorem optionContentIs_eq_decide (current old : Option Str) :
    optionContentIs current old = decide (current = old) := by
  unfold optionContentIs
  cases current <;> cases old <;> simp

/-- C1: for every transaction log present on disk and every pair of
current manifest/lockfile contents, `recover_manifest_lock_transaction`
deletes the log and leaves both files untouched when both files equal
the new contents or both equal the old contents (absent matching an
absent old field); when the manifest equals the new contents and the
lockfile the old ones (and no earlier case applies) it rewrites or
deletes both files to the old contents and deletes the log; and in
every other combination it fails with a configuration error naming the
log path while modifying neither file nor the log. -/
theorem recover_transaction_cases (configPath : Str) (tx : ManifestLockTransaction)
    (m l : Option Str) :
    ((m = some tx.new_manifest ∧ l = some tx.new_lock) →
      recoverManifestLockTransaction configPath ⟨m, l, some tx⟩ = (⟨m, l, none⟩, none)) ∧
    ((m = tx.old_manifest ∧ l = tx.old_lock) →
      recoverManifestLockTransaction configPath ⟨m, l, some tx⟩ = (⟨m, l, none⟩, none)) ∧
    ((m = some tx.new_manifest ∧ l = tx.old_lock ∧ l ≠ some tx.new_lock ∧
        m ≠ tx.old_manifest) →
      recoverManifestLockTransaction configPath ⟨m, l, some tx⟩ =
        (⟨tx.old_manifest, tx.old_lock, none⟩, none)) ∧
    ((¬(m = some tx.new_manifest ∧ l = some tx.new_lock) ∧
      ¬(m = tx.old_manifest ∧ l = tx.old_lock) ∧
      ¬(m = some tx.new_manifest ∧ l = tx.old_lock)) →
      ∃ msg, recoverManifestLockTransaction configPath ⟨m, l, some tx⟩ =
          (⟨m, l, some tx⟩, some (.configValidation msg)) ∧
        (transactionPath configPath) <:+: msg) := by
  unfold recoverManifestLockTransaction
  simp only [optionContentIs_eq_decide]
  refine ⟨?_, ?_, ?_, ?_⟩
  · rintro ⟨hm, hl⟩
    subst hm
    subst hl
    simp
  · rintro ⟨hm, hl⟩
    subst hm
    subst hl
    split
    · rfl
    · simp
  · rintro ⟨hm, hl, hlnew, hmold⟩
    subst hm
    subst hl
    simp [hlnew, hmold]
  · rintro ⟨h1, h2, h3⟩
    have c1 : (decide (m = some tx.new_manifest) && decide (l = some tx.new_lock)) = false := by
      by_cases hm : m = some tx.new_manifest
      · have hl : l ≠ some tx.new_lock := fun hl => h1 ⟨hm, hl⟩
        simp [hm, hl]
      · simp [hm]
    have c2 : (decide (m = tx.old_manifest) && decide (l = tx.old_lock)) = false := by
      by_cases hm : m = tx.old_manifest
      · have hl : l ≠ tx.old_lock := fun hl => h2 ⟨hm, hl⟩
        simp [hm, hl]
      · simp [hm]
    have c3 : (decide (m = some tx.new_manifest) && decide (l = tx.old_lock)) = false := by
      by_cases hm : m = some tx.new_manifest
      · have hl : l ≠ tx.old_lock := fun hl => h3 ⟨hm, hl⟩
        simp [hm, hl]
      · simp [hm]
    refine ⟨ambiguousTxMsg (transactionPath configPath), ?_, ?_⟩
    · simp [c1, c2, c3]
    · exact ⟨"Found unresolved manifest/lock transaction ".toList,
        ", but current files do not match a recoverable state. Please inspect files and remove the transaction file manually.".toList,
        by simp [ambiguousTxMsg]⟩

/-- Witness for C1: a rollback at concrete contents (manifest holds the
new contents, lockfile the old ones). -/
theorem recover_transaction_cases_witness :
    recoverManifestLockTransaction "voyager.toml".toList
        ⟨some "NEW-M".toList, some "OLD-L".toList,
         some ⟨some "OLD-M".toList, some "OLD-L".toList, "NEW-M".toList, "NEW-L".toList⟩⟩ =
      (⟨some "OLD-M".toList, some "OLD-L".toList, none⟩, none) :=
  (recover_transaction_cases "voyager.toml".toList
      ⟨some "OLD-M".toList, some "OLD-L".toList, "NEW-M".toList, "NEW-L".toList⟩
      (some "NEW-M".toList) (some "OLD-L".toList)).2.2.1
    ⟨rfl, rfl, by decide, by decide⟩

/-- Counterexample for C3: the claim states that when the lockfile
stores no `manifest_hash` the gate passes, but a lockfile record with
the out-of-range version 0 and no stored hash makes `check_and_load`
fail with the too-old configuration error (not `ManifestHashMismatch`,
and not a pass), because `Lockfile::load` gates the version before the
hash comparison is reached. -/
theorem checkAndLoad_version_gate_counterexample :
    Manifest.load exampleManifestContent = .ok exampleManifest ∧
    checkAndLoad exampleManifestContent
        (some { version := 0, manifest_hash := none, packages := [] })
      = .error (.configValidation (lockfileTooOldMsg 0)) ∧
    Error.configValidation (lockfileTooOldMsg 0) ≠ Error.manifestHashMismatch := by
  refine ⟨rfl, rfl, by simp⟩

/-- C3 (amended): for every manifest file that loads and validates
successfully, and a lockfile that is absent or has a version in the
accepted range, `check_and_load` fails with `ManifestHashMismatch`
exactly when the lockfile stores a `manifest_hash` differing from the
hash recomputed from the loaded manifest; when the lockfile is absent
or stores no hash the gate passes, returning the loaded manifest, the
lockfile (or a fresh default) and the recomputed hash. -/
theorem checkAndLoad_gate_spec (content : Str) (manifest : Manifest)
    (lockOnDisk : Option Lockfile)
    (hload : Manifest.load content = .ok manifest)
    (hver : ∀ lf, lockOnDisk = some lf →
      MIN_SUPPORTED_VERSION ≤ lf.version ∧ lf.version ≤ MAX_SUPPORTED_VERSION) :
    (checkAndLoad content lockOnDisk = .error .manifestHashMismatch ↔
      ∃ lf stored, lockOnDisk = some lf ∧ lf.manifest_hash = some stored ∧
        stored ≠ computeManifestHashFromManifest manifest) ∧
    (lockOnDisk = none →
      checkAndLoad content lockOnDisk =
        .ok ⟨manifest, Lockfile.new, computeManifestHashFromManifest manifest⟩) ∧
    (∀ lf, lockOnDisk = some lf → lf.manifest_hash = none →
      checkAndLoad content lockOnDisk =
        .ok ⟨manifest, lf, computeManifestHashFromManifest manifest⟩) := by
  cases lockOnDisk with
  | none =>
    refine ⟨?_, fun _ => ?_, fun lf h => nomatch h⟩
    · constructor
      · intro h
        simp [checkAndLoad, hload, Lockfile.loadOrDefault, Lockfile.new] at h
      · rintro ⟨lf, stored, h, -, -⟩
        exact nomatch h
    · simp [checkAndLoad, hload, Lockfile.loadOrDefault, Lockfile.new]
  | some lf =>
    obtain ⟨hlo, hhi⟩ := hver lf rfl
    simp only [MIN_SUPPORTED_VERSION] at hlo
    simp only [MAX_SUPPORTED_VERSION] at hhi
    have hv : lf.version = LOCKFILE_VERSION := by
      simp only [LOCKFILE_VERSION]
      omega
    have heta : ({ lf with version := LOCKFILE_VERSION } : Lockfile) = lf := by
      rw [← hv]
    have h1 : ¬(lf.version < MIN_SUPPORTED_VERSION) := by
      simp only [MIN_SUPPORTED_VERSION]
      omega
    have h2 : ¬(lf.version > MAX_SUPPORTED_VERSION) := by
      simp only [MAX_SUPPORTED_VERSION]
      omega
    have hload' : Lockfile.loadOrDefault (some lf) = .ok lf := by
      simp only [Lockfile.loadOrDefault, Lockfile.loadParsed, Lockfile.migrate]
      rw [if_neg h1, if_neg h2, heta]
    refine ⟨?_, ?_, ?_⟩
    case refine_2 =>
      intro h
      exact nomatch h
    · cases hmh : lf.manifest_hash with
      | none =>
        constructor
        · intro h
          simp [checkAndLoad, hload, hload', hmh] at h
        · rintro ⟨lf', stored, h, hstore, _⟩
          cases h
          rw [hmh] at hstore
          cases hstore
      | some stored =>
        by_cases hne : stored = computeManifestHashFromManifest manifest
        · constructor
          · intro h
            simp [checkAndLoad, hload, hload', hmh, hne] at h
          · rintro ⟨lf', stored', h, hstore, hne'⟩
            cases h
            rw [hmh] at hstore
            cases hstore
            exact absurd hne hne'
        · constructor
          · intro _
            exact ⟨lf, stored, rfl, hmh, hne⟩
          · intro _
            simp [checkAndLoad, hload, hload', hmh, hne]
    · intro lf' h hmh
      cases h
      simp [checkAndLoad, hload, hload', hmh]

/-- Witness for C3 (amended): with the example manifest and no
lockfile on disk, the gate passes and returns the fresh default. -/
theorem checkAndLoad_gate_spec_witness :
    checkAndLoad exampleManifestContent none =
      .ok ⟨exampleManifest, Lockfile.new,
           computeManifestHashFromManifest exampleManifest⟩ :=
  (checkAndLoad_gate_spec exampleManifestContent exampleManifest none rfl
    (fun _ h => by cases h)).2.1 rfl

/-- Shifting the attempt counter of the URL-check loop is the same as
shifting the response oracles. -/
theorem checkUrlAux_shift (head get : Nat → HttpOutcome) (a fuel : Nat) :
    checkUrlAux head get (a + 1) fuel =
      checkUrlAux (fun i => head (i + 1)) (fun i => get (i + 1)) a fuel := by
  induction fuel generalizing a with
  | zero => rfl
  | succ n ih =>
    simp only [checkUrlAux]
    rw [ih (a + 1)]

/-- `checkUrlAux_shift` at the first retry. -/
theorem checkUrlAux_shift1 (head get : Nat → HttpOutcome) (fuel : Nat) :
    checkUrlAux head get 1 fuel =
      checkUrlAux (fun i => head (i + 1)) (fun i => get (i + 1)) 0 fuel :=
  checkUrlAux_shift head get 0 fuel

/-- One iteration of the URL-check loop follows the per-attempt
decision table. -/
theorem checkUrlAux_step (head get : Nat → HttpOutcome) (fuel : Nat) :
    checkUrlAux head get 0 (fuel + 1) =
      match attemptDecisionSpec (head 0) (get 0) with
      | some b => (b, 1)
      | none =>
        ((checkUrlAux head get 1 fuel).1, (checkUrlAux head get 1 fuel).2 + 1) := by
  cases hh : head 0 with
  | transportError => simp [checkUrlAux, attemptDecisionSpec, hh]
  | status code =>
    cases hg : get 0 with
    | transportError =>
      simp only [checkUrlAux, attemptDecisionSpec, checkUrlExistsWithGet, hh, hg]
      split_ifs <;> rfl
    | status g =>
      simp only [checkUrlAux, attemptDecisionSpec, checkUrlExistsWithGet, hh, hg]
      split_ifs <;> rfl

/-- The URL-check loop performs at most `fuel` HEAD attempts. -/
theorem checkUrlAux_attempts_le (head get : Nat → HttpOutcome) (a fuel : Nat) :
    (checkUrlAux head get a fuel).2 ≤ fuel := by
  induction fuel generalizing a with
  | zero => simp [checkUrlAux]
  | succ n ih =>
    cases hh : head a with
    | transportError =>
      simp only [checkUrlAux, hh]
      simpa using Nat.succ_le_succ (ih (a + 1))
    | status code =>
      simp only [checkUrlAux, hh]
      have hnext := ih (a + 1)
      split_ifs
      · simp
      · cases checkUrlExistsWithGet (get a) with
        | some b => simp
        | none => simpa using Nat.succ_le_succ hnext
      · simpa using Nat.succ_le_succ hnext
      · simp
      · simpa using Nat.succ_le_succ hnext

/-- When every attempt is retryable, the loop uses all its fuel and
returns `false`. -/
theorem checkUrlAux_exhaust (head get : Nat → HttpOutcome) (fuel : Nat)
    (h : ∀ i, i < fuel → attemptDecisionSpec (head i) (get i) = none) :
    checkUrlAux head get 0 fuel = (false, fuel) := by
  induction fuel generalizing head get with
  | zero => rfl
  | succ n ih =>
    rw [checkUrlAux_step, h 0 (by omega), checkUrlAux_shift1,
      ih _ _ (fun i hi => h (i + 1) (by omega))]

/-- C6: `check_url_exists` follows the spec decision table attempt by
attempt - a 2xx HEAD is valid; HEAD 403/405/501 switches to the
range-limited GET where 2xx is valid, 4xx other than 429 invalid and
429/5xx/transport retried; HEAD 4xx other than the fallback statuses
and 429 is invalid without retry; HEAD 429/5xx/transport retry - the
number of attempts never exceeds `max_retries + 1`, and when every
attempt is retryable all `max_retries + 1` attempts are made and the
URL is treated as invalid. -/
theorem check_url_exists_spec (head get : Nat → HttpOutcome) (maxRetries : Nat) :
    (checkUrlExists head get maxRetries =
      match attemptDecisionSpec (head 0) (get 0) with
      | some b => b
      | none =>
        match maxRetries with
        | 0 => false
        | mr + 1 => checkUrlExists (fun i => head (i + 1)) (fun i => get (i + 1)) mr) ∧
    checkUrlAttempts head get maxRetries ≤ maxRetries + 1 ∧
    ((∀ i, i ≤ maxRetries → attemptDecisionSpec (head i) (get i) = none) →
      checkUrlExists head get maxRetries = false ∧
      checkUrlAttempts head get maxRetries = maxRetries + 1) := by
  refine ⟨?_, checkUrlAux_attempts_le head get 0 (maxRetries + 1), ?_⟩
  · unfold checkUrlExists
    rw [checkUrlAux_step]
    cases attemptDecisionSpec (head 0) (get 0) with
    | some b => rfl
    | none =>
      cases maxRetries with
      | zero => rfl
      | succ mr =>
        simp only [checkUrlAux_shift1]
  · intro h
    have hex := checkUrlAux_exhaust head get (maxRetries + 1)
      (fun i hi => h i (by omega))
    unfold checkUrlExists checkUrlAttempts
    rw [hex]
    exact ⟨rfl, rfl⟩

/-- Witness for C6: a URL whose HEAD always returns 500 is retried on
every attempt; with `max_retries = 1` both attempts are made and the
URL is invalid. -/
theorem check_url_exists_spec_witness :
    checkUrlExists (fun _ => .status 500) (fun _ => .status 200) 1 = false ∧
    checkUrlAttempts (fun _ => .status 500) (fun _ => .status 200) 1 = 2 :=
  (check_url_exists_spec (fun _ => .status 500) (fun _ => .status 200) 1).2.2
    (fun _ _ => rfl)

/-- `extractFirst` returns `none` exactly when `find?` does. -/
theorem extractFirst_none_iff (p : LockedVersion → Bool) (l : List LockedVersion) :
    extractFirst p l = none ↔ l.find? p = none := by
  induction l with
  | nil => simp [extractFirst]
  | cons x xs ih =>
    by_cases hx : p x
    · simp [extractFirst, List.find?, hx]
    · simp only [extractFirst, List.find?, hx, Bool.false_eq_true, if_false]
      cases hext : extractFirst p xs with
      | none => simpa [hext] using ih.mp hext
      | some pr =>
        simp only [hext]
        constructor
        · intro h
          cases h
        · intro h
          rw [ih.mpr h] at hext
          cases hext

/-- `extractFirst` returns the first match. -/
theorem extractFirst_some_find (p : LockedVersion → Bool) (l rest : List LockedVersion)
    (a : LockedVersion) (h : extractFirst p l = some (a, rest)) :
    l.find? p = some a := by
  induction l generalizing rest with
  | nil => cases h
  | cons x xs ih =>
    by_cases hx : p x
    · simp only [extractFirst, hx, if_true] at h
      cases h
      simp [List.find?, hx]
    · simp only [extractFirst, hx, Bool.false_eq_true, if_false] at h
      cases hext : extractFirst p xs with
      | none => rw [hext] at h; cases h
      | some pr =>
        rw [hext] at h
        cases h
        simp only [List.find?, hx]
        exact ih pr.2 hext

/-- Removing the first match of `p` does not change `find?` for a
predicate disjoint from `p`. -/
theorem extractFirst_find_other (p q : LockedVersion → Bool)
    (hdisj : ∀ x, p x = true → q x = false)
    (l rest : List LockedVersion) (a : LockedVersion)
    (h : extractFirst p l = some (a, rest)) :
    rest.find? q = l.find? q := by
  induction l generalizing rest with
  | nil => cases h
  | cons x xs ih =>
    by_cases hx : p x
    · simp only [extractFirst, hx, if_true] at h
      cases h
      simp [List.find?, hdisj a hx]
    · simp only [extractFirst, hx, Bool.false_eq_true, if_false] at h
      cases hext : extractFirst p xs with
      | none => rw [hext] at h; cases h
      | some pr =>
        rw [hext] at h
        cases h
        simp only [List.find?]
        cases hq : q x
        · exact ih pr.2 hext
        · rfl

/-- The merge loop of `fetch_package`, under a duplicate-free release
order, selects per upstream version the fetched entry if any, else the
existing one. -/
theorem mergeByReleaseOrder_eq_filterMap (existing : LockedPackage)
    (ro : List Str) (fetched : List LockedVersion) (hnd : ro.Nodup) :
    mergeByReleaseOrder existing ro fetched =
      ro.filterMap (fun vs =>
        match fetched.find? (fun v => v.version = vs) with
        | some v => some v
        | none => existing.getVersion vs) := by
  induction ro generalizing fetched with
  | nil => rfl
  | cons vs rest ih =>
    have hvs : vs ∉ rest := (List.nodup_cons.mp hnd).1
    have hrest : rest.Nodup := (List.nodup_cons.mp hnd).2
    cases hext : extractFirst (fun v => v.version = vs) fetched with
    | none =>
      have hfind : fetched.find? (fun v => v.version = vs) = none :=
        (extractFirst_none_iff _ _).mp hext
      simp only [mergeByReleaseOrder, hext, List.filterMap_cons, hfind]
      cases hex : existing.getVersion vs with
      | none => simp [ih fetched hrest]
      | some v => simp [ih fetched hrest]
    | some pr =>
      obtain ⟨v, fetchedRest⟩ := pr
      have hfind : fetched.find? (fun v => v.version = vs) = some v :=
        extractFirst_some_find _ _ _ _ hext
      simp only [mergeByReleaseOrder, hext, List.filterMap_cons, hfind]
      rw [ih fetchedRest hrest]
      congr 1
      apply List.filterMap_congr
      intro vs' hvs'
      have hne : vs' ≠ vs := fun hcontra => hvs (hcontra ▸ hvs')
      have : fetchedRest.find? (fun v => v.version = vs') =
          fetched.find? (fun v => v.version = vs') := by
        refine extractFirst_find_other _ _ ?_ _ _ _ hext
        intro x hx
        simp only [decide_eq_true_eq] at hx
        simp [hx, hne.symm]
      rw [this]

/-- Every entry chosen by the merge loop carries a version from the
release order. -/
theorem merged_version_mem (existing : LockedPackage) (ro : List Str)
    (fetched : List LockedVersion) (x : LockedVersion)
    (hx : x ∈ ro.filterMap (fun vs =>
      match fetched.find? (fun v => v.version = vs) with
      | some v => some v
      | none => existing.getVersion vs)) :
    x.version ∈ ro := by
  obtain ⟨vs, hvs, hF⟩ := List.mem_filterMap.mp hx
  have hxv : x.version = vs := by
    cases hfind : fetched.find? (fun v => v.version = vs) with
    | some v =>
      rw [hfind] at hF
      have hvx : some v = some x := hF
      cases hvx
      simpa using List.find?_some hfind
    | none =>
      rw [hfind] at hF
      have hF' : existing.versions.find? (fun v => v.version = vs) = some x := hF
      simpa using List.find?_some hF'
  rw [hxv]
  exact hvs

/-- Every existing version listed upstream appears among the merged
entries' versions. -/
theorem merged_version_covers (existing : LockedPackage) (ro : List Str)
    (fetched : List LockedVersion) (v : LockedVersion)
    (hv : v ∈ existing.versions) (hro : v.version ∈ ro) :
    v.version ∈ (ro.filterMap (fun vs =>
      match fetched.find? (fun v => v.version = vs) with
      | some v => some v
      | none => existing.getVersion vs)).map (fun x => x.version) := by
  cases hfind : fetched.find? (fun w => w.version = v.version) with
  | some w =>
    have hw : w.version = v.version := by simpa using List.find?_some hfind
    refine List.mem_map.mpr ⟨w, List.mem_filterMap.mpr ⟨v.version, hro, ?_⟩, hw⟩
    rw [hfind]
  | none =>
    have hsome : (existing.versions.find? (fun w => w.version = v.version)).isSome := by
      rw [List.find?_isSome]
      exact ⟨v, hv, by simp⟩
    obtain ⟨w, hw⟩ := Option.isSome_iff_exists.mp hsome
    have hwv : w.version = v.version := by simpa using List.find?_some hw
    refine List.mem_map.mpr ⟨w, List.mem_filterMap.mpr ⟨v.version, hro, ?_⟩, hwv⟩
    rw [hfind]
    exact hw

/-- The retention loop keeps, in order, exactly the existing versions
whose version string is outside the release order, provided the seen
set agrees with the release order on the existing versions. -/
theorem appendMissingExisting_eq_filter (seen : List Str) (ro : List Str)
    (existing : List LockedVersion)
    (hnd : (existing.map (fun v => v.version)).Nodup)
    (hiff : ∀ v ∈ existing, (v.version ∈ seen ↔ v.version ∈ ro)) :
    appendMissingExisting seen existing =
      existing.filter (fun v => !(ro.contains v.version)) := by
  induction existing generalizing seen with
  | nil => rfl
  | cons v rest ih =>
    have hv := hiff v (List.mem_cons_self v rest)
    rw [List.map_cons, List.nodup_cons] at hnd
    obtain ⟨hvnotin, hndrest⟩ := hnd
    by_cases hmem : v.version ∈ seen
    · have hro : v.version ∈ ro := hv.mp hmem
      have hcont : seen.contains v.version = true := by
        simpa [List.elem_iff] using hmem
      have hcontro : ro.contains v.version = true := by
        simpa [List.elem_iff] using hro
      simp only [appendMissingExisting, hcont, if_true, List.filter_cons, hcontro,
        Bool.not_true]
      exact ih seen hndrest (fun u hu => hiff u (List.mem_cons_of_mem v hu))
    · have hro : v.version ∉ ro := fun h => hmem (hv.mpr h)
      have hcont : seen.contains v.version = false := by
        simp only [← Bool.not_eq_true]
        simpa [List.elem_iff] using hmem
      have hcontro : ro.contains v.version = false := by
        simp only [← Bool.not_eq_true]
        simpa [List.elem_iff] using hro
      simp only [appendMissingExisting, hcont, Bool.false_eq_true, if_false,
        List.filter_cons, hcontro, Bool.not_false]
      congr 1
      refine ih (v.version :: seen) hndrest ?_
      intro u hu
      have hune : u.version ≠ v.version := by
        intro hcontra
        exact hvnotin (hcontra ▸ List.mem_map_of_mem (fun w => w.version) hu)
      constructor
      · intro h
        rcases List.mem_cons.mp h with h | h
        · exact absurd h hune
        · exact (hiff u (List.mem_cons_of_mem v hu)).mp h
      · intro h
        exact List.mem_cons_of_mem _ ((hiff u (List.mem_cons_of_mem v hu)).mpr h)

/-- C4: for every fetched package whose upstream listing has at least
one release with an asset URL, the merged locked-version list follows
the upstream listing order restricted to asset-bearing releases,
taking per release version the newly fetched entry when one exists and
otherwise the existing lockfile entry (skipping versions with
neither), followed by, in lockfile order, every previously locked
version not among the listed (asset-bearing) versions; when the
listing has no asset-bearing release the existing versions are kept
unchanged.  Stated for duplicate-free release orders and lockfile
version lists. -/
theorem fetch_package_merge_spec (releases : List Release)
    (fetched : List LockedVersion) (existing : LockedPackage)
    (hnd_ro : (releaseOrder releases).Nodup)
    (hnd_ex : (existing.versions.map (fun v => v.version)).Nodup) :
    (releaseOrder releases ≠ [] →
      mergeLockedVersions releases fetched existing =
        (releaseOrder releases).filterMap (fun vs =>
          match fetched.find? (fun v => v.version = vs) with
          | some v => some v
          | none => existing.getVersion vs) ++
        existing.versions.filter (fun v => !((releaseOrder releases).contains v.version))) ∧
    (releaseOrder releases = [] →
      mergeLockedVersions releases fetched existing = existing.versions) := by
  constructor
  · intro hne
    have hro_ne : (releaseOrder releases).isEmpty = false := by
      simpa [List.isEmpty_iff] using hne
    simp only [mergeLockedVersions, hro_ne, Bool.false_eq_true, if_false]
    rw [mergeByReleaseOrder_eq_filterMap existing _ fetched hnd_ro]
    congr 1
    apply appendMissingExisting_eq_filter _ _ _ hnd_ex
    intro v hv
    constructor
    · intro h
      obtain ⟨x, hx, hxv⟩ := List.mem_map.mp h
      rw [← hxv]
      exact merged_version_mem existing _ fetched x hx
    · intro h
      exact merged_version_covers existing _ fetched v hv h
  · intro hempty
    simp [mergeLockedVersions, hempty]

/-- Witness for C4: two upstream releases (one newly fetched, one kept
from the lockfile). -/
theorem fetch_package_merge_spec_witness :
    mergeLockedVersions
        [⟨"v2.0.0".toList, some "https://assets.example/pkg1-v2.json".toList⟩,
         ⟨"v1.0.0".toList, some "https://assets.example/pkg1-v1.json".toList⟩]
        [exampleLocked "2.0.0" "v2.0.0"]
        ⟨"com.example.vpm.pkg".toList, exampleRepository, [exampleLocked "1.0.0" "v1.0.0"]⟩ =
      (releaseOrder
          [⟨"v2.0.0".toList, some "https://assets.example/pkg1-v2.json".toList⟩,
           ⟨"v1.0.0".toList, some "https://assets.example/pkg1-v1.json".toList⟩]).filterMap
        (fun vs =>
          match [exampleLocked "2.0.0" "v2.0.0"].find? (fun v => v.version = vs) with
          | some v => some v
          | none =>
            LockedPackage.getVersion
              ⟨"com.example.vpm.pkg".toList, exampleRepository,
               [exampleLocked "1.0.0" "v1.0.0"]⟩ vs) ++
      [exampleLocked "1.0.0" "v1.0.0"].filter (fun v =>
        !((releaseOrder
            [⟨"v2.0.0".toList, some "https://assets.example/pkg1-v2.json".toList⟩,
             ⟨"v1.0.0".toList, some "https://assets.example/pkg1-v1.json".toList⟩]).contains
          v.version)) :=
  (fetch_package_merge_spec _ _ _ (by decide) (by decide)).1 (by decide)

/-- `lookup` succeeds exactly on present keys. -/
theorem lookup_isSome_iff (pairs : List (Str × Nat)) (id : Str) :
    (pairs.lookup id).isSome = true ↔ id ∈ pairs.map Prod.fst := by
  induction pairs with
  | nil => simp [List.lookup]
  | cons kv rest ih =>
    obtain ⟨k, v⟩ := kv
    by_cases h : k = id
    · subst h
      simp [List.lookup]
    · have hne : (id == k) = false := by
        simpa using Ne.symm h
      simp [List.lookup, hne, ih, Ne.symm h]

/-- A successful `lookup` returns a pair of the list. -/
theorem lookup_mem (pairs : List (Str × Nat)) (id : Str) (i : Nat)
    (h : pairs.lookup id = some i) : (id, i) ∈ pairs := by
  induction pairs with
  | nil => cases h
  | cons kv rest ih =>
    obtain ⟨k, v⟩ := kv
    by_cases hk : k = id
    · subst hk
      simp [List.lookup] at h
      subst h
      exact List.mem_cons_self _ _
    · have hne : (id == k) = false := by
        simpa using Ne.symm hk
      simp only [List.lookup, hne] at h
      exact List.mem_cons_of_mem _ (ih h)

/-- `hashMapGet` succeeds exactly on inserted keys. -/
theorem hashMapGet_isSome_iff (pairs : List (Str × Nat)) (id : Str) :
    (hashMapGet pairs id).isSome = true ↔ id ∈ pairs.map Prod.fst := by
  unfold hashMapGet
  rw [lookup_isSome_iff, List.map_reverse, List.mem_reverse]

/-- A successful `hashMapGet` returns an inserted pair. -/
theorem hashMapGet_mem (pairs : List (Str × Nat)) (id : Str) (i : Nat)
    (h : hashMapGet pairs id = some i) : (id, i) ∈ pairs :=
  List.mem_reverse.mp (lookup_mem _ _ _ h)

/-- The keys of the manifest order map are the manifest package ids. -/
theorem manifestOrderPairs_keys (manifest : Manifest) :
    (manifestOrderPairs manifest).map Prod.fst = manifest.packages.map (fun p => p.id) := by
  unfold manifestOrderPairs
  rw [List.map_map]
  have : (Prod.fst ∘ fun p : Nat × Package => (p.2.id, p.1)) =
      (fun p : Package => p.id) ∘ Prod.snd := rfl
  rw [this, ← List.map_map, List.enum_map_snd]

/-- A pair of the manifest order map names the package at its index. -/
theorem mem_manifestOrderPairs (manifest : Manifest) (id : Str) (i : Nat)
    (h : (id, i) ∈ manifestOrderPairs manifest) :
    ∃ hi : i < manifest.packages.length, (manifest.packages.get ⟨i, hi⟩).id = id := by
  unfold manifestOrderPairs at h
  obtain ⟨⟨j, p⟩, hmem, heq⟩ := List.mem_map.mp h
  obtain ⟨h1, h2⟩ := Prod.mk.injEq .. ▸ heq
  obtain ⟨hlt, hp⟩ := List.mem_enum hmem
  subst h2
  exact ⟨hlt, by rw [← h1, hp]; rfl⟩

/-- Under duplicate-free manifest ids, the order map sends the i-th
package id to i. -/
theorem hashMapGet_get (manifest : Manifest)
    (hm : (manifest.packages.map (fun p => p.id)).Nodup)
    (i : Nat) (hi : i < manifest.packages.length) :
    hashMapGet (manifestOrderPairs manifest) (manifest.packages.get ⟨i, hi⟩).id = some i := by
  have hmem : (manifest.packages.get ⟨i, hi⟩).id ∈ (manifestOrderPairs manifest).map Prod.fst := by
    rw [manifestOrderPairs_keys]
    exact List.mem_map_of_mem _ (manifest.packages.get_mem _ _)
  obtain ⟨j, hj⟩ := Option.isSome_iff_exists.mp ((hashMapGet_isSome_iff _ _).mpr hmem)
  obtain ⟨hjlt, hjid⟩ := mem_manifestOrderPairs _ _ _ (hashMapGet_mem _ _ _ hj)
  have hlen : (manifest.packages.map (fun p => p.id)).length = manifest.packages.length := by
    simp
  have hij : j = i := by
    have hinj := List.nodup_iff_injective_get.mp hm
    have hgetj : (manifest.packages.map (fun p => p.id)).get ⟨j, by omega⟩ =
        (manifest.packages.get ⟨j, hjlt⟩).id := by
      simp
    have hgeti : (manifest.packages.map (fun p => p.id)).get ⟨i, by omega⟩ =
        (manifest.packages.get ⟨i, hi⟩).id := by
      simp
    have : (⟨j, by omega⟩ : Fin (manifest.packages.map (fun p => p.id)).length) =
        ⟨i, by omega⟩ := by
      apply hinj
      rw [hgetj, hgeti, hjid]
    simpa using congrArg Fin.val this
  rw [hj, hij]

/-- `getOrInsertFix` keeps the id list, appending the id when it was
absent. -/
theorem getOrInsertFix_map_id (p : Package) (C : List LockedPackage) :
    (getOrInsertFix p C).map (fun q => q.id) =
      if p.id ∈ C.map (fun q => q.id) then C.map (fun q => q.id)
      else C.map (fun q => q.id) ++ [p.id] := by
  induction C with
  | nil => simp [getOrInsertFix]
  | cons q rest ih =>
    by_cases h : q.id = p.id
    · simp only [getOrInsertFix, h, if_true]
      split
      · simp [h]
      · simp [h]
    · simp only [getOrInsertFix, h, if_false, List.map_cons, ih]
      by_cases hmem : p.id ∈ rest.map (fun q => q.id)
      · simp [hmem, Ne.symm h]
      · simp [hmem, Ne.symm h]

/-- `getOrInsertFix` leaves entries with other ids in place. -/
theorem getOrInsertFix_find_other (p : Package) (idv : Str) (hne : idv ≠ p.id)
    (C : List LockedPackage) :
    (getOrInsertFix p C).find? (fun r => r.id = idv) =
      C.find? (fun r => r.id = idv) := by
  induction C with
  | nil => simp [getOrInsertFix, List.find?, Ne.symm hne]
  | cons q rest ih =>
    by_cases h : q.id = p.id
    · have hq : (decide (q.id = idv)) = false := by
        simp [h, Ne.symm hne]
      simp only [getOrInsertFix, h, if_true]
      split
      · simp [List.find?, hq, h, Ne.symm hne]
      · simp [List.find?, hq]
    · simp only [getOrInsertFix, h, if_false]
      cases hq : (decide (q.id = idv)) with
      | true => simp [List.find?, hq]
      | false => simp [List.find?, hq, ih]

/-- An element of `getOrInsertFix p C` (for duplicate-free ids) is the
fixed entry for `p`, or an untouched entry with a different id. -/
theorem mem_getOrInsertFix (p : Package) (C : List LockedPackage)
    (hC : (C.map (fun q => q.id)).Nodup) (q : LockedPackage)
    (hq : q ∈ getOrInsertFix p C) :
    q = applyFix p (C.find? (fun r => r.id = p.id)) ∨ (q ∈ C ∧ ¬q.id = p.id) := by
  induction C with
  | nil =>
    simp only [getOrInsertFix, List.mem_singleton] at hq
    subst hq
    left
    rfl
  | cons r rest ih =>
    rw [List.map_cons, List.nodup_cons] at hC
    obtain ⟨hrnotin, hndrest⟩ := hC
    by_cases hr : r.id = p.id
    · simp only [getOrInsertFix, hr, if_true] at hq
      rcases List.mem_cons.mp hq with hq | hq
      · left
        subst hq
        have hfind : (r :: rest).find? (fun s => s.id = p.id) = some r := by
          simp [List.find?, hr]
        rw [hfind]
        unfold applyFix
        by_cases hrepo : r.repository = p.repository
        · simp [hrepo]
        · simp [hrepo, hr]
      · right
        refine ⟨List.mem_cons_of_mem _ hq, ?_⟩
        intro hqid
        exact hrnotin (hr ▸ hqid ▸ List.mem_map_of_mem (fun q => q.id) hq)
    · simp only [getOrInsertFix, hr, if_false] at hq
      rcases List.mem_cons.mp hq with hq | hq
      · right
        subst hq
        exact ⟨List.mem_cons_self _ _, hr⟩
      · have hfind : (r :: rest).find? (fun s => s.id = p.id) =
            rest.find? (fun s => s.id = p.id) := by
          simp [List.find?, hr]
        rcases ih hndrest hq with h | ⟨h1, h2⟩
        · left
          rw [hfind]
          exact h
        · exact Or.inr ⟨List.mem_cons_of_mem _ h1, h2⟩

/-- The id of a reconciled entry is the manifest package id, provided
the previous entry (when any) was found under that id. -/
theorem applyFix_id (p : Package) (o : Option LockedPackage)
    (ho : ∀ old, o = some old → old.id = p.id) : (applyFix p o).id = p.id := by
  cases o with
  | none => rfl
  | some old =>
    unfold applyFix
    by_cases hrepo : old.repository = p.repository
    · simp [hrepo, ho old rfl]
    · simp [hrepo]

/-- The reconciliation insert loop: the final id list is the starting
ids followed by the not-yet-present manifest ids in manifest order. -/
theorem foldIns_map_id (ps : List Package) (C : List LockedPackage)
    (hps : (ps.map (fun p => p.id)).Nodup) :
    (ps.foldl (fun acc p => getOrInsertFix p acc) C).map (fun q => q.id) =
      C.map (fun q => q.id) ++
        (ps.filter (fun p => decide (p.id ∉ C.map (fun q => q.id)))).map (fun p => p.id) := by
  induction ps generalizing C with
  | nil => simp
  | cons p ps ih =>
    rw [List.map_cons, List.nodup_cons] at hps
    obtain ⟨hpnotin, hndps⟩ := hps
    rw [List.foldl_cons]
    rw [ih (getOrInsertFix p C) hndps]
    rw [getOrInsertFix_map_id]
    by_cases hmem : p.id ∈ C.map (fun q => q.id)
    · rw [if_pos hmem, List.filter_cons_of_neg (by simpa using hmem)]
    · rw [if_neg hmem, List.filter_cons_of_pos (by simpa using hmem)]
      have hfilter : ps.filter
            (fun p' => decide (p'.id ∉ C.map (fun q => q.id) ++ [p.id])) =
          ps.filter (fun p' => decide (p'.id ∉ C.map (fun q => q.id))) := by
        apply List.filter_congr
        intro p' hp'
        have hne : p'.id ≠ p.id := by
          intro hcontra
          exact hpnotin (hcontra ▸ List.mem_map_of_mem (fun p => p.id) hp')
        simp [hne]
      rw [hfilter, List.map_cons, List.append_assoc, List.singleton_append]

/-- The reconciliation insert loop, elementwise: each final entry is
the fixed entry of the first manifest package with its id, or an
untouched starting entry whose id no manifest package carries. -/
theorem foldIns_mem_spec (ps : List Package) (C : List LockedPackage)
    (hps : (ps.map (fun p => p.id)).Nodup)
    (hC : (C.map (fun q => q.id)).Nodup)
    (q : LockedPackage) (hq : q ∈ ps.foldl (fun acc p => getOrInsertFix p acc) C) :
    match ps.find? (fun p => p.id = q.id) with
    | some p => q = applyFix p (C.find? (fun r => r.id = p.id))
    | none => q ∈ C := by
  induction ps generalizing C with
  | nil => simpa using hq
  | cons p ps ih =>
    rw [List.map_cons, List.nodup_cons] at hps
    obtain ⟨hpnotin, hndps⟩ := hps
    rw [List.foldl_cons] at hq
    have hC' : ((getOrInsertFix p C).map (fun q => q.id)).Nodup := by
      rw [getOrInsertFix_map_id]
      split
      · exact hC
      · rename_i hmem
        rw [List.nodup_append]
        exact ⟨hC, List.nodup_singleton _, by simpa using hmem⟩
    have hrec := ih (getOrInsertFix p C) hndps hC' hq
    cases hfind : ps.find? (fun p' => p'.id = q.id) with
    | some p' =>
      rw [hfind] at hrec
      have hrec' : q = applyFix p'
          ((getOrInsertFix p C).find? (fun r => r.id = p'.id)) := hrec
      have hp'mem : p' ∈ ps := List.mem_of_find?_eq_some hfind
      have hp'ne : p'.id ≠ p.id := by
        intro hcontra
        exact hpnotin (hcontra ▸ List.mem_map_of_mem (fun p => p.id) hp'mem)
      have hqid : q.id = p'.id := by
        have h := List.find?_some hfind
        simp only [decide_eq_true_eq] at h
        exact h.symm
      have hhead : (decide (p.id = q.id)) = false := by
        rw [hqid]
        simp [Ne.symm hp'ne]
      simp only [List.find?, hhead, hfind]
      rw [getOrInsertFix_find_other p p'.id hp'ne C] at hrec'
      exact hrec'
    | none =>
      rw [hfind] at hrec
      have hrec' : q ∈ getOrInsertFix p C := hrec
      rcases mem_getOrInsertFix p C hC q hrec' with h | ⟨h1, h2⟩
      · have hqid : q.id = p.id := by
          rw [h]
          apply applyFix_id
          intro old hold
          simpa using List.find?_some hold
        have hhead : (decide (p.id = q.id)) = true := by
          simp [hqid]
        simp only [List.find?, hhead]
        exact h
      · have hhead : (decide (p.id = q.id)) = false := by
          simp only [decide_eq_false_iff_not]
          exact fun hcontra => h2 hcontra.symm
        simp only [List.find?, hhead, hfind]
        exact h1

/-- `find?` commutes with a filter whose predicate is implied. -/
theorem find?_filter_of_imp (l : List LockedPackage) (pred keep : LockedPackage → Bool)
    (himp : ∀ x, pred x = true → keep x = true) :
    (l.filter keep).find? pred = l.find? pred := by
  induction l with
  | nil => rfl
  | cons x xs ih =>
    cases hpred : pred x with
    | true =>
      rw [List.filter_cons_of_pos (himp x hpred)]
      simp [List.find?, hpred]
    | false =>
      cases hkeep : keep x with
      | true =>
        rw [List.filter_cons_of_pos hkeep]
        simp [List.find?, hpred, ih]
      | false =>
        rw [List.filter_cons_of_neg (by simp [hkeep])]
        simp [List.find?, hpred, ih]

/-- `find?` under duplicate-free ids returns the member itself. -/
theorem find?_self_of_nodup (l : List Package)
    (hnd : (l.map (fun p => p.id)).Nodup) (p : Package) (hp : p ∈ l) :
    l.find? (fun pp => pp.id = p.id) = some p := by
  induction l with
  | nil => cases hp
  | cons x xs ih =>
    rw [List.map_cons, List.nodup_cons] at hnd
    obtain ⟨hxnotin, hndxs⟩ := hnd
    rcases List.mem_cons.mp hp with hp | hp
    · subst hp
      simp [List.find?]
    · have hne : x.id ≠ p.id := by
        intro hcontra
        exact hxnotin (hcontra ▸ List.mem_map_of_mem (fun p => p.id) hp)
      simp [List.find?, hne, ih hndxs hp]

/-- C5: after `reconcile_lockfile`, the lockfile packages are exactly
the manifest packages in manifest order (stale entries dropped,
missing ones inserted with empty versions), each carrying the previous
entry when its repository coordinate matches the manifest and a fresh
entry with the manifest coordinate and cleared versions otherwise.  In
particular every lockfile id appears in the manifest, every manifest
id appears in the lockfile, and the package order equals the manifest
order.  Stated for duplicate-free manifest and lockfile ids. -/
theorem reconcile_lockfile_spec (manifest : Manifest) (lockfile : Lockfile)
    (hm : (manifest.packages.map (fun p => p.id)).Nodup)
    (hl : (lockfile.packages.map (fun q => q.id)).Nodup) :
    (reconcileLockfile manifest lockfile).packages =
      manifest.packages.map (fun p =>
        applyFix p (lockfile.packages.find? (fun r => r.id = p.id))) ∧
    (reconcileLockfile manifest lockfile).packages.map (fun q => q.id) =
      manifest.packages.map (fun p => p.id) := by
  set order := manifestOrderPairs manifest with horder
  set key : LockedPackage → Nat :=
    fun q => (hashMapGet order q.id).getD USIZE_MAX with hkeydef
  set retained :=
    lockfile.packages.filter (fun q => (hashMapGet order q.id).isSome) with hretained
  set F := manifest.packages.foldl (fun acc p => getOrInsertFix p acc) retained with hFdef
  set target := manifest.packages.map (fun p =>
    applyFix p (lockfile.packages.find? (fun r => r.id = p.id))) with htargetdef
  have hrec : (reconcileLockfile manifest lockfile).packages =
      F.mergeSort (fun a b => decide (key a ≤ key b)) := rfl
  have hkeep_iff : ∀ q : LockedPackage,
      ((hashMapGet order q.id).isSome = true) ↔
        q.id ∈ manifest.packages.map (fun p => p.id) := by
    intro q
    have h1 := hashMapGet_isSome_iff order q.id
    rw [horder, manifestOrderPairs_keys] at h1
    exact h1
  have hret_nodup : (retained.map (fun q => q.id)).Nodup :=
    List.Nodup.sublist (List.Sublist.map _ (List.filter_sublist _)) hl
  have hF_ids : F.map (fun q => q.id) =
      retained.map (fun q => q.id) ++
        (manifest.packages.filter
          (fun p => decide (p.id ∉ retained.map (fun q => q.id)))).map
          (fun p => p.id) :=
    foldIns_map_id manifest.packages retained hm
  have hFnodup : (F.map (fun q => q.id)).Nodup := by
    rw [hF_ids, List.nodup_append]
    refine ⟨hret_nodup,
      List.Nodup.sublist (List.Sublist.map _ (List.filter_sublist _)) hm, ?_⟩
    intro a ha hb
    obtain ⟨p, hp, hpid⟩ := List.mem_map.mp hb
    have hnot := (List.mem_filter.mp hp).2
    simp only [decide_eq_true_eq] at hnot
    rw [hpid] at hnot
    exact hnot ha
  have hF_mem : ∀ idv : Str, idv ∈ F.map (fun q => q.id) ↔
      idv ∈ manifest.packages.map (fun p => p.id) := by
    intro idv
    rw [hF_ids, List.mem_append]
    constructor
    · rintro (h | h)
      · obtain ⟨q, hq, hqid⟩ := List.mem_map.mp h
        rw [← hqid]
        exact (hkeep_iff q).mp (List.mem_filter.mp hq).2
      · obtain ⟨p, hp, hpid⟩ := List.mem_map.mp h
        rw [← hpid]
        exact List.mem_map_of_mem _ (List.mem_filter.mp hp).1
    · intro h
      by_cases hr : idv ∈ retained.map (fun q => q.id)
      · exact Or.inl hr
      · right
        obtain ⟨p, hp, hpid⟩ := List.mem_map.mp h
        refine List.mem_map.mpr ⟨p, List.mem_filter.mpr ⟨hp, ?_⟩, hpid⟩
        simp only [decide_eq_true_eq]
        rw [hpid]
        exact hr
  have hfind_retained : ∀ p : Package, p ∈ manifest.packages →
      retained.find? (fun r => r.id = p.id) =
        lockfile.packages.find? (fun r => r.id = p.id) := by
    intro p hp
    apply find?_filter_of_imp
    intro x hx
    simp only [decide_eq_true_eq] at hx
    apply (hkeep_iff x).mpr
    rw [hx]
    exact List.mem_map_of_mem _ hp
  have hF_elem : ∀ q ∈ F, ∃ p,
      manifest.packages.find? (fun pp => pp.id = q.id) = some p ∧
      q = applyFix p (lockfile.packages.find? (fun r => r.id = p.id)) := by
    intro q hq
    have hspec := foldIns_mem_spec manifest.packages retained hm hret_nodup q hq
    cases hfind : manifest.packages.find? (fun pp => pp.id = q.id) with
    | some p =>
      rw [hfind] at hspec
      have hspec' : q = applyFix p (retained.find? (fun r => r.id = p.id)) := hspec
      have hpmem : p ∈ manifest.packages := List.mem_of_find?_eq_some hfind
      rw [hfind_retained p hpmem] at hspec'
      exact ⟨p, rfl, hspec'⟩
    | none =>
      rw [hfind] at hspec
      have hq_mem : q ∈ retained := hspec
      exfalso
      have hid : q.id ∈ manifest.packages.map (fun p => p.id) :=
        (hkeep_iff q).mp (List.mem_filter.mp hq_mem).2
      obtain ⟨p, hp, hpid⟩ := List.mem_map.mp hid
      have hsome : (manifest.packages.find? (fun pp => pp.id = q.id)).isSome := by
        rw [List.find?_isSome]
        exact ⟨p, hp, by simp [hpid]⟩
      rw [hfind] at hsome
      cases hsome
  have hF_entry : ∀ q ∈ F, reconciledEntryById manifest lockfile q.id = q := by
    intro q hq
    obtain ⟨p, hfind, hq'⟩ := hF_elem q hq
    unfold reconciledEntryById
    rw [hfind]
    exact hq'.symm
  have hF_eq_map : F = (F.map (fun q => q.id)).map (reconciledEntryById manifest lockfile) := by
    rw [List.map_map]
    have h1 : F.map ((reconciledEntryById manifest lockfile) ∘ (fun q => q.id)) =
        F.map (fun q => q) :=
      List.map_congr_left (fun q hq => hF_entry q hq)
    rw [h1]
    simp
  have htarget_eq_map : target =
      (manifest.packages.map (fun p => p.id)).map
        (reconciledEntryById manifest lockfile) := by
    rw [htargetdef, List.map_map]
    apply List.map_congr_left
    intro p hp
    show applyFix p (lockfile.packages.find? (fun r => r.id = p.id)) =
      reconciledEntryById manifest lockfile p.id
    unfold reconciledEntryById
    rw [find?_self_of_nodup manifest.packages hm p hp]
  have hperm : F.Perm target := by
    rw [hF_eq_map, htarget_eq_map]
    exact ((List.perm_ext_iff_of_nodup hFnodup hm).mpr hF_mem).map _
  have happlyFix_id : ∀ p : Package,
      (applyFix p (lockfile.packages.find? (fun r => r.id = p.id))).id = p.id := by
    intro p
    apply applyFix_id
    intro old hold
    simpa using List.find?_some hold
  have htarget_ids : target.map (fun q => q.id) =
      manifest.packages.map (fun p => p.id) := by
    rw [htargetdef, List.map_map]
    exact List.map_congr_left (fun p _ => happlyFix_id p)
  have hlen : target.length = manifest.packages.length := by
    rw [htargetdef, List.length_map]
  have htarget_key : ∀ (i : Nat) (hi : i < target.length),
      key (target.get ⟨i, hi⟩) = i := by
    rw [htargetdef]
    intro i hi
    have hi' : i < manifest.packages.length := by
      simpa using hi
    simp only [List.get_eq_getElem, List.getElem_map, hkeydef]
    rw [happlyFix_id (manifest.packages[i])]
    have hg := hashMapGet_get manifest hm i hi'
    simp only [List.get_eq_getElem] at hg
    rw [horder, hg]
    rfl
  have htarget_sorted : List.Pairwise (fun a b => key a ≤ key b) target := by
    rw [List.pairwise_iff_get]
    intro i j hij
    have h1 := htarget_key i.val i.isLt
    have h2 := htarget_key j.val j.isLt
    rw [h1, h2]
    exact Nat.le_of_lt hij
  have hsorted : List.Pairwise (fun a b : LockedPackage => key a ≤ key b)
      (F.mergeSort (fun a b => decide (key a ≤ key b))) := by
    have h := @List.sorted_mergeSort LockedPackage
      (fun a b : LockedPackage => decide (key a ≤ key b))
      (fun a b c hab hbc => by
        simp only [decide_eq_true_eq] at *
        omega)
      (fun a b => by
        simp only [Bool.or_eq_true, decide_eq_true_eq]
        omega)
      F
    exact h.imp (fun hab => by simpa using hab)
  have hkey_id : ∀ x : LockedPackage,
      x.id ∈ manifest.packages.map (fun p => p.id) →
      ∃ hi : key x < manifest.packages.length,
        (manifest.packages.get ⟨key x, hi⟩).id = x.id := by
    intro x hx
    have hsome : (hashMapGet order x.id).isSome := (hkeep_iff x).mpr hx
    obtain ⟨i, hi⟩ := Option.isSome_iff_exists.mp hsome
    have hmem' : (x.id, i) ∈ manifestOrderPairs manifest := by
      rw [← horder]
      exact hashMapGet_mem order x.id i hi
    obtain ⟨hlt, hid⟩ := mem_manifestOrderPairs manifest x.id i hmem'
    have hkx : key x = i := by
      rw [hkeydef]
      simp [hi]
    refine ⟨by omega, ?_⟩
    have : (⟨key x, by omega⟩ : Fin manifest.packages.length) = ⟨i, hlt⟩ := by
      simp [hkx]
    rw [this]
    exact hid
  have hmem_eq : ∀ a b : LockedPackage,
      a ∈ F.mergeSort (fun a b => decide (key a ≤ key b)) → b ∈ target →
      key a ≤ key b → key b ≤ key a → a = b := by
    intro a b ha hb h1 h2
    have haF : a ∈ F := ((List.mergeSort_perm F _).mem_iff).mp ha
    have hbF : b ∈ F := hperm.mem_iff.mpr hb
    have hkab : key a = key b := Nat.le_antisymm h1 h2
    have haid : a.id ∈ manifest.packages.map (fun p => p.id) :=
      (hF_mem a.id).mp (List.mem_map_of_mem _ haF)
    have hbid : b.id ∈ manifest.packages.map (fun p => p.id) :=
      (hF_mem b.id).mp (List.mem_map_of_mem _ hbF)
    obtain ⟨hia, hida⟩ := hkey_id a haid
    obtain ⟨hib, hidb⟩ := hkey_id b hbid
    have hfin : (⟨key a, hia⟩ : Fin manifest.packages.length) = ⟨key b, hib⟩ := by
      apply Fin.ext
      exact hkab
    have hideq : a.id = b.id := by
      rw [← hida, ← hidb, hfin]
    rw [← hF_entry a haF, ← hF_entry b hbF, hideq]
  have hsort_eq : F.mergeSort (fun a b => decide (key a ≤ key b)) = target :=
    List.Perm.eq_of_sorted hmem_eq hsorted htarget_sorted
      ((List.mergeSort_perm F _).trans hperm)
  refine ⟨hrec.trans hsort_eq, ?_⟩
  rw [hrec, hsort_eq]
  exact htarget_ids

/-- Witness for C5 at a concrete manifest/lockfile pair: a stale
package dropped, a changed repository cleared, and a missing package
inserted. -/
theorem reconcile_lockfile_spec_witness :
    (reconcileLockfile exampleManifest
        { version := 1, manifest_hash := none,
          packages :=
            [{ id := "com.example.vpm.stale".toList, repository := exampleRepository,
               versions := [] },
             { id := "com.example.vpm.pkg".toList, repository := exampleRepository2,
               versions := [exampleLocked "1.0.0" "v1.0.0"] }] }).packages =
      exampleManifest.packages.map (fun p =>
        applyFix p
          ([{ id := "com.example.vpm.stale".toList, repository := exampleRepository,
              versions := [] },
            { id := "com.example.vpm.pkg".toList, repository := exampleRepository2,
              versions := [exampleLocked "1.0.0" "v1.0.0"] }].find?
            (fun r => r.id = p.id))) :=
  (reconcile_lockfile_spec exampleManifest
    { version := 1, manifest_hash := none,
      packages :=
        [{ id := "com.example.vpm.stale".toList, repository := exampleRepository,
           versions := [] },
         { id := "com.example.vpm.pkg".toList, repository := exampleRepository2,
           versions := [exampleLocked "1.0.0" "v1.0.0"] }] }
    (by decide) (by decide)).1

/-- Updating the versions of a package does not change the id list. -/
theorem setVersionsFirst_map_id (id : Str) (vs : List LockedVersion)
    (l : List LockedPackage) :
    (setVersionsFirst id vs l).map (fun q => q.id) = l.map (fun q => q.id) := by
  induction l with
  | nil => rfl
  | cons q rest ih =>
    by_cases h : q.id = id
    · simp [setVersionsFirst, h]
    · simp [setVersionsFirst, h, ih]

/-- `getOrInsertFix` guarantees the id is present afterwards. -/
theorem getOrInsertFix_id_mem (p : Package) (C : List LockedPackage) :
    p.id ∈ (getOrInsertFix p C).map (fun q => q.id) := by
  induction C with
  | nil => simp [getOrInsertFix]
  | cons q rest ih =>
    by_cases h : q.id = p.id
    · simp only [getOrInsertFix, h, if_true, List.map_cons, List.mem_cons]
      left
      split <;> simp [h]
    · simp only [getOrInsertFix, h, if_false, List.map_cons, List.mem_cons]
      exact Or.inr ih

/-- `getOrInsertFix` keeps every already present id. -/
theorem getOrInsertFix_id_mono (p : Package) (C : List LockedPackage) (idv : Str)
    (h : idv ∈ C.map (fun q => q.id)) :
    idv ∈ (getOrInsertFix p C).map (fun q => q.id) := by
  induction C with
  | nil => cases h
  | cons q rest ih =>
    rcases List.mem_cons.mp h with h | h
    · by_cases hq : q.id = p.id
      · simp only [getOrInsertFix, hq, if_true, List.map_cons, List.mem_cons]
        left
        split <;> simp [h, hq]
      · simp only [getOrInsertFix, hq, if_false, List.map_cons, List.mem_cons]
        exact Or.inl h
    · by_cases hq : q.id = p.id
      · simp only [getOrInsertFix, hq, if_true, List.map_cons, List.mem_cons]
        exact Or.inr h
      · simp only [getOrInsertFix, hq, if_false, List.map_cons, List.mem_cons]
        exact Or.inr (ih h)

/-- The insert loop keeps every already present id. -/
theorem foldIns_id_mono (ps : List Package) (C : List LockedPackage) (idv : Str)
    (h : idv ∈ C.map (fun q => q.id)) :
    idv ∈ (ps.foldl (fun acc p => getOrInsertFix p acc) C).map (fun q => q.id) := by
  induction ps generalizing C with
  | nil => exact h
  | cons p ps ih =>
    rw [List.foldl_cons]
    exact ih _ (getOrInsertFix_id_mono p C idv h)

/-- The insert loop makes every processed id present. -/
theorem foldIns_id_mem (ps : List Package) (C : List LockedPackage) (p : Package)
    (hp : p ∈ ps) :
    p.id ∈ (ps.foldl (fun acc p => getOrInsertFix p acc) C).map (fun q => q.id) := by
  induction ps generalizing C with
  | nil => cases hp
  | cons p0 ps ih =>
    rw [List.foldl_cons]
    rcases List.mem_cons.mp hp with hp | hp
    · subst hp
      exact foldIns_id_mono ps _ p.id (getOrInsertFix_id_mem p C)
    · exact ih _ hp

/-- Every manifest package id is present after reconciliation. -/
theorem reconcile_id_mem (manifest : Manifest) (lockfile : Lockfile) (p : Package)
    (hp : p ∈ manifest.packages) :
    p.id ∈ (reconcileLockfile manifest lockfile).packages.map (fun q => q.id) := by
  have hmem := foldIns_id_mem manifest.packages
    (lockfile.packages.filter
      (fun q => (hashMapGet (manifestOrderPairs manifest) q.id).isSome)) p hp
  have hperm : (reconcileLockfile manifest lockfile).packages.Perm
      (manifest.packages.foldl (fun acc p => getOrInsertFix p acc)
        (lockfile.packages.filter
          (fun q => (hashMapGet (manifestOrderPairs manifest) q.id).isSome))) :=
    List.mergeSort_perm _ _
  exact (hperm.map (fun q => q.id)).mem_iff.mpr hmem

/-- A list permuting a list of `ok` values is itself a list of `ok`
values of a permutation. -/
theorem perm_ok_shape (l : List (Except Error PackageFetchResult))
    (results : List PackageFetchResult)
    (h : l.Perm (results.map Except.ok)) :
    ∃ rs : List PackageFetchResult, l = rs.map Except.ok ∧ rs.Perm results := by
  have hall : ∀ e ∈ l, ∃ r, e = Except.ok r := by
    intro e he
    have := h.mem_iff.mp he
    obtain ⟨r, _, hr⟩ := List.mem_map.mp this
    exact ⟨r, hr.symm⟩
  have hshape : ∀ l' : List (Except Error PackageFetchResult),
      (∀ e ∈ l', ∃ r, e = Except.ok r) →
      l' = (l'.filterMap exceptOkValue).map Except.ok := by
    intro l'
    induction l' with
    | nil => intro _; rfl
    | cons e es ih =>
      intro hall'
      obtain ⟨r, hr⟩ := hall' e (List.mem_cons_self _ _)
      subst hr
      simp only [List.filterMap_cons, exceptOkValue, List.map_cons]
      rw [← ih (fun e he => hall' e (List.mem_cons_of_mem _ he))]
  have hback : ∀ rs : List PackageFetchResult,
      (rs.map Except.ok).filterMap exceptOkValue = rs := by
    intro rs
    induction rs with
    | nil => rfl
    | cons r rest ih =>
      simp only [List.map_cons, List.filterMap_cons, exceptOkValue]
      rw [ih]
  refine ⟨l.filterMap exceptOkValue, hshape l hall, ?_⟩
  have h1 := h.filterMap exceptOkValue
  rw [hback results] at h1
  exact h1

/-- `Forall₂` gives a related right element for every left element. -/
theorem forall₂_mem_left {R : PackageFetchResult → Package → Prop}
    (l₁ : List PackageFetchResult) (l₂ : List Package)
    (h : List.Forall₂ R l₁ l₂) (a : PackageFetchResult) (ha : a ∈ l₁) :
    ∃ b ∈ l₂, R a b := by
  induction h with
  | nil => cases ha
  | cons hr hrest ih =>
    rcases List.mem_cons.mp ha with ha | ha
    · subst ha
      exact ⟨_, List.mem_cons_self _ _, hr⟩
    · obtain ⟨b, hb, hab⟩ := ih ha
      exact ⟨b, List.mem_cons_of_mem _ hb, hab⟩

/-- The result-collection loop over all-successful outcomes completes,
accumulating the failure counts and leaving the id list unchanged. -/
theorem applyOutcomes_ok (rs : List PackageFetchResult) (lf : Lockfile) (acc : Nat)
    (hmem : ∀ r ∈ rs, r.package_id ∈ lf.packages.map (fun q => q.id)) :
    ∃ lf', applyOutcomes lf acc (rs.map Except.ok) =
        .ok (lf', acc + (rs.map (fun r => r.failed_count)).sum) ∧
      lf'.packages.map (fun q => q.id) = lf.packages.map (fun q => q.id) := by
  induction rs generalizing lf acc with
  | nil =>
    exact ⟨lf, by simp [applyOutcomes], rfl⟩
  | cons r rs ih =>
    have hr := hmem r (List.mem_cons_self _ _)
    have hfound : (lf.getPackage r.package_id).isSome := by
      unfold Lockfile.getPackage
      rw [List.find?_isSome]
      obtain ⟨q, hq, hqid⟩ := List.mem_map.mp hr
      exact ⟨q, hq, by simp [hqid]⟩
    obtain ⟨pkg, hpkg⟩ := Option.isSome_iff_exists.mp hfound
    have hmem' : ∀ r' ∈ rs, r'.package_id ∈
        (setVersionsFirst r.package_id r.versions lf.packages).map (fun q => q.id) := by
      intro r' hr'
      rw [setVersionsFirst_map_id]
      exact hmem r' (List.mem_cons_of_mem _ hr')
    obtain ⟨lf', hlf', hids⟩ :=
      ih { lf with packages := setVersionsFirst r.package_id r.versions lf.packages }
        (acc + r.failed_count) hmem'
    refine ⟨lf', ?_, ?_⟩
    · simp only [List.map_cons, applyOutcomes, hpkg, hlf']
      congr 1
      congr 1
      simp [Nat.add_assoc]
    · rw [hids]
      exact setVersionsFirst_map_id _ _ _

/-- C2: for every fetch run that completes all packages (an outcome in
some completion order for each manifest package), if at least one
per-release download, parse or validation failed, the command fails
with `FetchPartialFailure` carrying the total failure count and no
lockfile write is performed; with no per-release failure, the
lockfile's `manifest_hash` is overwritten with the gate's hash and the
lockfile is saved by the single-file atomic write, not the two-file
transaction. -/
theorem fetch_completion_spec (manifest : Manifest) (lockfile : Lockfile)
    (current_hash : Str) (wipe : Bool)
    (results : List PackageFetchResult)
    (outcomes : List (Nat × Except Error PackageFetchResult))
    (houtcomes : outcomes.Perm ((results.map Except.ok).enum))
    (hids : List.Forall₂ (fun (r : PackageFetchResult) (p : Package) =>
      r.package_id = p.id) results manifest.packages) :
    (0 < (results.map (fun r => r.failed_count)).sum →
      executeFetchCommand manifest lockfile current_hash wipe outcomes =
        (.error (.fetchPartialFailure ((results.map (fun r => r.failed_count)).sum)),
         [])) ∧
    ((results.map (fun r => r.failed_count)).sum = 0 →
      ∃ final, executeFetchCommand manifest lockfile current_hash wipe outcomes =
          (.ok final, [.saveLockfile final]) ∧
        final.manifest_hash = some current_hash) := by
  set start := if wipe then
      { lockfile with packages :=
          lockfile.packages.map (fun p => { p with versions := ([] : List LockedVersion) }) }
    else lockfile with hstart
  have hcmd : executeFetchCommand manifest lockfile current_hash wipe outcomes =
      (match PackageFetcher.fetch manifest start outcomes with
       | .error e => (.error e, [])
       | .ok fetched =>
         (.ok { fetched with manifest_hash := some current_hash },
          [.saveLockfile { fetched with manifest_hash := some current_hash }])) := rfl
  by_cases hempty : manifest.packages.isEmpty
  · have hres : results = [] := by
      have hlen := List.Forall₂.length_eq hids
      rw [List.isEmpty_iff.mp hempty] at hlen
      exact List.length_eq_zero.mp (by simpa using hlen)
    have hfetch : PackageFetcher.fetch manifest start outcomes =
        .ok (reconcileLockfile manifest start) := by
      simp only [PackageFetcher.fetch, hempty, if_true]
    constructor
    · intro hpos
      rw [hres] at hpos
      simp at hpos
    · intro _
      refine ⟨{ reconcileLockfile manifest start with
        manifest_hash := some current_hash }, ?_, rfl⟩
      rw [hcmd, hfetch]
  · have hempty' : manifest.packages.isEmpty = false := by
      simpa using hempty
    have hperm_es : ((sortOutcomesByIdx outcomes).map Prod.snd).Perm
        (results.map Except.ok) := by
      have h1 : (sortOutcomesByIdx outcomes).Perm outcomes := List.mergeSort_perm _ _
      have h2 := (h1.trans houtcomes).map Prod.snd
      rwa [List.enum_map_snd] at h2
    obtain ⟨rs, hes_eq, hrs_perm⟩ := perm_ok_shape _ results hperm_es
    have hsum : (rs.map (fun r => r.failed_count)).sum =
        (results.map (fun r => r.failed_count)).sum :=
      (hrs_perm.map (fun r => r.failed_count)).sum_eq
    have hpres : ∀ r ∈ rs, r.package_id ∈
        (reconcileLockfile manifest start).packages.map (fun q => q.id) := by
      intro r hr
      have hrres : r ∈ results := hrs_perm.mem_iff.mp hr
      obtain ⟨p, hp, hrp⟩ := forall₂_mem_left results manifest.packages hids r hrres
      rw [hrp]
      exact reconcile_id_mem manifest start p hp
    obtain ⟨lf', hlf', hids'⟩ := applyOutcomes_ok rs (reconcileLockfile manifest start) 0 hpres
    have happly : applyOutcomes (reconcileLockfile manifest start) 0
        ((sortOutcomesByIdx outcomes).map Prod.snd) =
        .ok (lf', (rs.map (fun r => r.failed_count)).sum) := by
      rw [hes_eq, hlf', Nat.zero_add]
    have hfetch : PackageFetcher.fetch manifest start outcomes =
        (if (rs.map (fun r => r.failed_count)).sum > 0 then
          .error (.fetchPartialFailure ((rs.map (fun r => r.failed_count)).sum))
        else .ok lf') := by
      simp only [PackageFetcher.fetch, hempty', Bool.false_eq_true, if_false, happly]
    constructor
    · intro hpos
      rw [hcmd, hfetch, hsum, if_pos (by omega)]
    · intro hzero
      refine ⟨{ lf' with manifest_hash := some current_hash }, ?_, rfl⟩
      rw [hcmd, hfetch, hsum, if_neg (by omega)]

/-- Witness for C2: a one-package fetch with no failures saves the
lockfile with the gate hash via the single-file write. -/
theorem fetch_completion_spec_witness :
    ∃ final, executeFetchCommand exampleManifest Lockfile.new "gate-hash".toList false
        [(0, Except.ok
          { package_id := "com.example.vpm.pkg".toList, versions := [],
            existing_count := 0, new_count := 0, failed_count := 0 })] =
        (.ok final, [.saveLockfile final]) ∧
      final.manifest_hash = some "gate-hash".toList :=
  (fetch_completion_spec exampleManifest Lockfile.new "gate-hash".toList false
    [{ package_id := "com.example.vpm.pkg".toList, versions := [],
       existing_count := 0, new_count := 0, failed_count := 0 }]
    [(0, Except.ok
      { package_id := "com.example.vpm.pkg".toList, versions := [],
        existing_count := 0, new_count := 0, failed_count := 0 })]
    (List.Perm.refl _)
    (List.Forall₂.cons rfl List.Forall₂.nil)).2 rfl

/-- C9: for every file content that loads as a valid manifest, the
file-based `compute_manifest_hash` used by the lock command and the
value-based `compute_manifest_hash_from_manifest` applied to the
loaded manifest (the load gate's path) return the same hash string. -/
theorem manifest_hash_paths_agree (content : Str) (m : Manifest)
    (hload : Manifest.load content = .ok m) :
    computeManifestHashFile content = .ok (computeManifestHashFromManifest m) := by
  cases hp : parseManifestToml content with
  | none =>
    simp only [Manifest.load, hp] at hload
    exact absurd hload (by simp)
  | some manifest =>
    simp only [Manifest.load, hp] at hload
    cases hv : manifest.validate with
    | error e =>
      simp only [hv] at hload
      exact absurd hload (by simp)
    | ok u =>
      simp only [hv, Except.ok.injEq] at hload
      rw [computeManifestHashFile, hp, hload]

/-- Witness for C9: the example manifest document gives the same hash
on both paths. -/
theorem manifest_hash_paths_agree_witness :
    computeManifestHashFile exampleManifestContent =
      .ok (computeManifestHashFromManifest exampleManifest) :=
  manifest_hash_paths_agree exampleManifestContent exampleManifest rfl



/-- A literal string body followed by its closing quote parses back. -/
theorem parseLiteralBody_concat (s : Str) (h : squote ∉ s) :
    parseLiteralBody (s ++ [squote]) = some s := by
  induction s with
  | nil =>
    show parseLiteralBody [squote] = some []
    unfold parseLiteralBody
    rw [if_pos rfl]
    rfl
  | cons c s ih =>
    have hcs : ¬(c = squote) := fun he => h (he ▸ List.mem_cons_self c s)
    have hs : squote ∉ s := fun hm => h (List.mem_cons_of_mem c hm)
    show parseLiteralBody (c :: (s ++ [squote])) = some (c :: s)
    unfold parseLiteralBody
    rw [if_neg hcs, ih hs]

/-- An escaped basic-string body followed by its closing quote parses
back. -/
theorem parseBasicBody_concat (s : Str) :
    parseBasicBody ((s.map basicEscapeChar).flatten ++ ['"']) = some s := by
  induction s with
  | nil =>
    show parseBasicBody ['"'] = some []
    rfl
  | cons c s ih =>
    rw [List.map_cons, List.flatten_cons, List.append_assoc]
    rw [basicEscapeChar]
    by_cases h1 : c = '"'
    · subst h1
      rw [if_pos rfl]
      show parseBasicBody ('\\' :: '"' :: ((s.map basicEscapeChar).flatten ++ ['"'])) =
        some ('"' :: s)
      rw [parseBasicBody, ih]
      rfl
    · rw [if_neg h1]
      by_cases h2 : c = '\\'
      · subst h2
        rw [if_pos rfl]
        show parseBasicBody ('\\' :: '\\' :: ((s.map basicEscapeChar).flatten ++ ['"'])) =
          some ('\\' :: s)
        rw [parseBasicBody, ih]
        rfl
      · rw [if_neg h2]
        by_cases h3 : c = '\n'
        · subst h3
          rw [if_pos rfl]
          show parseBasicBody ('\\' :: 'n' :: ((s.map basicEscapeChar).flatten ++ ['"'])) =
            some ('\n' :: s)
          rw [parseBasicBody, ih]
          rfl
        · rw [if_neg h3]
          by_cases h4 : c = '\t'
          · subst h4
            rw [if_pos rfl]
            show parseBasicBody ('\\' :: 't' :: ((s.map basicEscapeChar).flatten ++ ['"'])) =
              some ('\t' :: s)
            rw [parseBasicBody, ih]
            rfl
          · rw [if_neg h4]
            by_cases h5 : c = '\r'
            · subst h5
              rw [if_pos rfl]
              show parseBasicBody ('\\' :: 'r' :: ((s.map basicEscapeChar).flatten ++ ['"'])) =
                some ('\r' :: s)
              rw [parseBasicBody, ih]
              rfl
            · rw [if_neg h5]
              show parseBasicBody (c :: ((s.map basicEscapeChar).flatten ++ ['"'])) =
                some (c :: s)
              rw [parseBasicBody.eq_def]
              split
              · rename_i heq; exact nomatch heq
              · rename_i heq
                rw [List.cons.injEq] at heq
                exact absurd heq.1 h1
              · rename_i heq
                rw [List.cons.injEq] at heq
                exact absurd heq.1 h2
              · rename_i c2 rest2 hx hy heq
                rw [List.cons.injEq] at heq
                rw [← heq.2, ih, heq.1]


/-- A pretty-rendered string value parses back to itself. -/
theorem parseStringValue_pretty (s : Str) :
    parseStringValue (prettyStringRepr s) = some s := by
  rw [prettyStringRepr]
  by_cases hc : canUseLiteralString s
  · rw [if_pos hc, literalStringRepr]
    have hsq : squote ∉ s := by
      intro hm
      have h2 := List.all_eq_true.mp hc squote hm
      revert h2
      decide
    rw [parseStringValue.eq_def]
    split
    · rename_i rest heq
      injection heq with hh ht
      exact absurd hh (by decide)
    · rename_i c rest hne2 heq
      injection heq with hh ht
      rw [if_pos hh.symm, ← ht]
      exact parseLiteralBody_concat s hsq
    · rename_i heq
      exact nomatch heq
  · rw [if_neg hc, basicStringRepr]
    rw [parseStringValue.eq_def]
    split
    · rename_i rest heq
      injection heq with hh ht
      rw [← ht]
      exact parseBasicBody_concat s
    · rename_i c rest hne2 heq
      injection heq with hh ht
      exact absurd hh.symm hne2
    · rename_i heq
      exact nomatch heq

/-- Basic-string escaping never emits a raw newline. -/
theorem newline_not_mem_basicEscape (c : Char) : '\n' ∉ basicEscapeChar c := by
  rw [basicEscapeChar]
  by_cases h1 : c = '"'
  · rw [if_pos h1]; decide
  · rw [if_neg h1]
    by_cases h2 : c = '\\'
    · rw [if_pos h2]; decide
    · rw [if_neg h2]
      by_cases h3 : c = '\n'
      · rw [if_pos h3]; decide
      · rw [if_neg h3]
        by_cases h4 : c = '\t'
        · rw [if_pos h4]; decide
        · rw [if_neg h4]
          by_cases h5 : c = '\r'
          · rw [if_pos h5]; decide
          · rw [if_neg h5]
            intro hm
            exact h3 (List.mem_singleton.mp hm).symm

/-- A pretty-rendered string value contains no raw newline. -/
theorem newline_not_mem_pretty (s : Str) : '\n' ∉ prettyStringRepr s := by
  rw [prettyStringRepr]
  by_cases hc : canUseLiteralString s
  · rw [if_pos hc, literalStringRepr]
    intro hmem
    rcases List.mem_cons.mp hmem with h | h
    · exact absurd h (by decide)
    · rcases List.mem_append.mp h with h2 | h2
      · have h3 := List.all_eq_true.mp hc _ h2
        revert h3
        decide
      · exact absurd (List.mem_singleton.mp h2) (by decide)
  · rw [if_neg hc, basicStringRepr]
    intro hmem
    rcases List.mem_cons.mp hmem with h | h
    · exact absurd h (by decide)
    · rcases List.mem_append.mp h with h2 | h2
      · rcases List.mem_flatten.mp h2 with ⟨l, hl, hnl⟩
        rcases List.mem_map.mp hl with ⟨c, hcs, hlc⟩
        rw [← hlc] at hnl
        exact newline_not_mem_basicEscape c hnl
      · exact absurd (List.mem_singleton.mp h2) (by decide)

/-- A pretty-rendered string value starts with a non-whitespace quote. -/
theorem prettyStringRepr_head (s : Str) :
    ∃ c rest, prettyStringRepr s = c :: rest ∧ isTomlWs c = false := by
  rw [prettyStringRepr]
  by_cases hc : canUseLiteralString s
  · rw [if_pos hc, literalStringRepr]
    exact ⟨squote, s ++ [squote], rfl, by decide⟩
  · rw [if_neg hc, basicStringRepr]
    exact ⟨'"', (s.map basicEscapeChar).flatten ++ ['"'], rfl, by decide⟩

/-- A pretty-rendered string value ends with a non-whitespace quote. -/
theorem prettyStringRepr_getLast (s : Str) :
    ∃ c, (prettyStringRepr s).getLast? = some c ∧ isTomlWs c = false := by
  rw [prettyStringRepr]
  by_cases hc : canUseLiteralString s
  · rw [if_pos hc, literalStringRepr]
    refine ⟨squote, ?_, by decide⟩
    show ((squote :: s) ++ [squote]).getLast? = some squote
    rw [List.getLast?_concat]
  · rw [if_neg hc, basicStringRepr]
    refine ⟨'"', ?_, by decide⟩
    show (('"' :: (s.map basicEscapeChar).flatten) ++ ['"']).getLast? = some '"'
    rw [List.getLast?_concat]

/-- dropWhile is the identity when the head does not satisfy the
predicate. -/
theorem dropWhile_eq_self_of_head (p : Char → Bool) (l : Str)
    (h : ∀ c, l.head? = some c → p c = false) : l.dropWhile p = l := by
  cases l with
  | nil => rfl
  | cons a l =>
    rw [List.dropWhile_cons, h a rfl]
    simp

/-- Trimming is the identity on a line with non-whitespace ends. -/
theorem trimToml_eq_self (l : Str)
    (hh : ∀ c, l.head? = some c → isTomlWs c = false)
    (hl : ∀ c, l.getLast? = some c → isTomlWs c = false) : trimToml l = l := by
  rw [trimToml, dropWhile_eq_self_of_head _ _ hh,
    dropWhile_eq_self_of_head _ _ (fun c hc => hl c (by rwa [List.head?_reverse] at hc)),
    List.reverse_reverse]

/-- Trimming strips a single leading space from an otherwise
non-whitespace-ended string. -/
theorem trimToml_cons_space (l : Str)
    (hh : ∀ c, l.head? = some c → isTomlWs c = false)
    (hl : ∀ c, l.getLast? = some c → isTomlWs c = false) :
    trimToml (' ' :: l) = l := by
  rw [trimToml]
  rw [show List.dropWhile isTomlWs (' ' :: l) = List.dropWhile isTomlWs l from by
    rw [List.dropWhile_cons]
    simp [isTomlWs]]
  rw [dropWhile_eq_self_of_head _ _ hh,
    dropWhile_eq_self_of_head _ _ (fun c hc => hl c (by rwa [List.head?_reverse] at hc)),
    List.reverse_reverse]

/-- Trimming strips a single trailing space from an otherwise
non-whitespace-ended string. -/
theorem trimToml_concat_space (l : Str) (hne : l ≠ [])
    (hh : ∀ c, l.head? = some c → isTomlWs c = false)
    (hl : ∀ c, l.getLast? = some c → isTomlWs c = false) :
    trimToml (l ++ [' ']) = l := by
  obtain ⟨a, l2, rfl⟩ := List.exists_cons_of_ne_nil hne
  rw [trimToml]
  rw [dropWhile_eq_self_of_head isTomlWs ((a :: l2) ++ [' ']) (fun c hc => by
    rw [List.cons_append] at hc
    exact hh c hc)]
  rw [List.reverse_append]
  show (List.dropWhile isTomlWs (' ' :: (a :: l2).reverse)).reverse = a :: l2
  rw [List.dropWhile_cons, if_pos (by decide),
    dropWhile_eq_self_of_head isTomlWs (a :: l2).reverse
      (fun c hc => hl c (by rwa [List.head?_reverse] at hc)),
    List.reverse_reverse]


/-- A lowercase letter is not special in a TOML line. -/
theorem isLower_char_facts (c : Char) (h : c.isLower = true) :
    isTomlWs c = false ∧ ¬(c = '=') ∧ ¬(c = '#') ∧ ¬(c = '[') := by
  refine ⟨?_, ?_, ?_, ?_⟩
  · by_cases h1 : c = ' '
    · subst h1; exact absurd h (by decide)
    · by_cases h2 : c = '\t'
      · subst h2; exact absurd h (by decide)
      · simp [isTomlWs, h1, h2]
  · intro he; subst he; exact absurd h (by decide)
  · intro he; subst he; exact absurd h (by decide)
  · intro he; subst he; exact absurd h (by decide)

/-- takeWhile runs past a prefix that satisfies the predicate. -/
theorem takeWhile_append_of_all (p : Char → Bool) (l1 l2 : Str)
    (h : ∀ c ∈ l1, p c = true) :
    (l1 ++ l2).takeWhile p = l1 ++ l2.takeWhile p := by
  induction l1 with
  | nil => rfl
  | cons a l ih =>
    rw [List.cons_append, List.takeWhile_cons, h a (List.mem_cons_self a l)]
    rw [ih (fun c hc => h c (List.mem_cons_of_mem a hc)), List.cons_append]
    rfl

/-- A serialized key-value line with a lowercase key parses back. -/
theorem parseKvRest_pretty (key v : Str) (hne : key ≠ [])
    (hk : key.all Char.isLower = true) :
    parseKvRest (kvLineOut key (prettyStringRepr v)) =
      some (.kv key v) := by
  have hkfacts : ∀ c ∈ key, isTomlWs c = false ∧ ¬(c = '=') ∧ ¬(c = '#') ∧ ¬(c = '[') :=
    fun c hc => isLower_char_facts c (List.all_eq_true.mp hk c hc)
  have htake : (kvLineOut key (prettyStringRepr v)).takeWhile (fun c => c ≠ '=') =
      key ++ [' '] := by
    show (key ++ (' ' :: '=' :: ' ' :: prettyStringRepr v)).takeWhile (fun c => c ≠ '=') = _
    rw [takeWhile_append_of_all _ key _ (fun c hc => by
      simp only [decide_eq_true_eq]
      exact (hkfacts c hc).2.1)]
    rfl
  have hlen : (key ++ [' ']).length = key.length + 1 := by simp
  have hdrop : (kvLineOut key (prettyStringRepr v)).drop (key ++ [' ']).length =
      '=' :: ' ' :: prettyStringRepr v := by
    show ((key ++ (' ' :: '=' :: ' ' :: prettyStringRepr v))).drop (key ++ [' ']).length = _
    rw [show key ++ (' ' :: '=' :: ' ' :: prettyStringRepr v) =
      (key ++ [' ']) ++ ('=' :: ' ' :: prettyStringRepr v) from by simp]
    rw [List.drop_left]
  have htrimkey : trimToml (key ++ [' ']) = key := by
    apply trimToml_concat_space key hne
    · intro c hc
      obtain ⟨a, l2, rfl⟩ := List.exists_cons_of_ne_nil hne
      have : a = c := by simpa using hc
      exact this ▸ (hkfacts a (List.mem_cons_self a l2)).1
    · intro c hc
      exact (hkfacts c (List.mem_of_mem_getLast? hc)).1
  obtain ⟨rc, rrest, hrshape, hrws⟩ := prettyStringRepr_head v
  obtain ⟨rd, hrlast, hrdws⟩ := prettyStringRepr_getLast v
  have htrimval : trimToml (' ' :: prettyStringRepr v) = prettyStringRepr v := by
    apply trimToml_cons_space
    · intro c hc
      rw [hrshape] at hc
      have : rc = c := by simpa using hc
      exact this ▸ hrws
    · intro c hc
      rw [hrlast] at hc
      have : rd = c := by simpa using hc
      exact this ▸ hrdws
  rw [parseKvRest]
  rw [htake, hdrop, htrimkey]
  split
  · rename_i valuePart heq
    injection heq with hh ht
    rw [← ht]
    show (if key.isEmpty = true then none
      else match parseStringValue (trimToml (' ' :: prettyStringRepr v)) with
        | some v2 => some (TomlLine.kv key v2)
        | none => none) = some (TomlLine.kv key v)
    rw [if_neg (fun hemp => hne (List.isEmpty_iff.mp hemp))]
    rw [htrimval, parseStringValue_pretty v]
  · rename_i x hno
    exact (hno (' ' :: prettyStringRepr v) rfl).elim

/-- A full serialized key-value line lexes to its key-value token. -/
theorem parseTomlLine_kv (key v : Str) (hne : key ≠ [])
    (hk : key.all Char.isLower = true) :
    parseTomlLine (kvLineOut key (prettyStringRepr v)) = some (.kv key v) := by
  obtain ⟨k0, key2, rfl⟩ := List.exists_cons_of_ne_nil hne
  have hk0 := isLower_char_facts k0 (List.all_eq_true.mp hk k0 (List.mem_cons_self _ _))
  have hkfacts : ∀ c ∈ k0 :: key2, isTomlWs c = false :=
    fun c hc => (isLower_char_facts c (List.all_eq_true.mp hk c hc)).1
  obtain ⟨rd, hrlast, hrdws⟩ := prettyStringRepr_getLast v
  have hlast : (kvLineOut (k0 :: key2) (prettyStringRepr v)).getLast? = some rd := by
    show ((k0 :: key2) ++ ([' ', '=', ' '] ++ prettyStringRepr v)).getLast? = some rd
    rw [List.getLast?_append, List.getLast?_append, hrlast]
    rfl
  have htrim : trimToml (kvLineOut (k0 :: key2) (prettyStringRepr v)) =
      kvLineOut (k0 :: key2) (prettyStringRepr v) := by
    apply trimToml_eq_self
    · intro c hc
      have : k0 = c := by
        have h2 : (k0 :: (key2 ++ ' ' :: '=' :: ' ' :: prettyStringRepr v)).head? = some c := hc
        simpa using h2
      exact this ▸ hkfacts k0 (List.mem_cons_self _ _)
    · intro c hc
      rw [hlast] at hc
      have : rd = c := by simpa using hc
      exact this ▸ hrdws
  rw [parseTomlLine.eq_def, htrim]
  split
  · rename_i heq
    exact nomatch heq
  · rename_i heq
    have h2 : (k0 :: (key2 ++ ' ' :: '=' :: ' ' :: prettyStringRepr v)) =
        '#' :: _ := heq
    injection h2 with hh ht
    exact absurd hh hk0.2.2.1
  · rename_i heq
    have h2 : (k0 :: (key2 ++ ' ' :: '=' :: ' ' :: prettyStringRepr v)) =
        '[' :: '[' :: _ := heq
    injection h2 with hh ht
    exact absurd hh hk0.2.2.2
  · rename_i heq
    have h2 : (k0 :: (key2 ++ ' ' :: '=' :: ' ' :: prettyStringRepr v)) =
        '[' :: _ := heq
    injection h2 with hh ht
    exact absurd hh hk0.2.2.2
  · exact parseKvRest_pretty (k0 :: key2) v hne hk


/-- splitOnCharAux on a chunk without the separator. -/
theorem splitOnCharAux_no_sep (c : Char) (l : Str) (h : c ∉ l) (acc : Str) :
    splitOnCharAux c l acc = [acc.reverse ++ l] := by
  induction l generalizing acc with
  | nil => simp [splitOnCharAux]
  | cons x xs ih =>
    have hx : ¬(x = c) := fun he => h (he ▸ List.mem_cons_self x xs)
    have hxs : c ∉ xs := fun hm => h (List.mem_cons_of_mem x hm)
    rw [splitOnCharAux, if_neg hx, ih hxs]
    simp

/-- splitOnCharAux consumes a separator-free chunk up to the next
separator. -/
theorem splitOnCharAux_sep (c : Char) (l rest : Str) (h : c ∉ l) (acc : Str) :
    splitOnCharAux c (l ++ c :: rest) acc =
      (acc.reverse ++ l) :: splitOnCharAux c rest [] := by
  induction l generalizing acc with
  | nil =>
    rw [List.nil_append, splitOnCharAux, if_pos rfl]
    simp
  | cons x xs ih =>
    have hx : ¬(x = c) := fun he => h (he ▸ List.mem_cons_self x xs)
    have hxs : c ∉ xs := fun hm => h (List.mem_cons_of_mem x hm)
    rw [List.cons_append, splitOnCharAux, if_neg hx, ih hxs]
    simp

/-- intercalate on a one-element list. -/
theorem intercalate_single (s a : Str) : List.intercalate s [a] = a := by
  rw [List.intercalate, List.intersperse_single, List.flatten_cons]
  simp

/-- intercalate on a list with at least two elements. -/
theorem intercalate_cons_cons (s a b : Str) (ls : List Str) :
    List.intercalate s (a :: b :: ls) = a ++ (s ++ List.intercalate s (b :: ls)) := by
  rw [List.intercalate, List.intersperse_cons₂, List.flatten_cons, List.flatten_cons,
    List.intercalate]

/-- Splitting a newline-joined line list recovers the lines, with a
final empty piece for the trailing newline. -/
theorem splitOnChar_joinLines_cons (c : Char) (l : Str) (ls : List Str)
    (h : ∀ x ∈ l :: ls, c ∉ x) :
    splitOnChar c (List.intercalate [c] (l :: ls) ++ [c]) = (l :: ls) ++ [[]] := by
  induction ls generalizing l with
  | nil =>
    rw [intercalate_single]
    rw [splitOnChar, splitOnCharAux_sep c l [] (h l (List.mem_cons_self l [])) []]
    simp [splitOnCharAux]
  | cons l2 ls ih =>
    rw [intercalate_cons_cons]
    have hstep : l ++ ([c] ++ List.intercalate [c] (l2 :: ls)) ++ [c] =
        l ++ c :: (List.intercalate [c] (l2 :: ls) ++ [c]) := by simp
    rw [hstep, splitOnChar,
      splitOnCharAux_sep c l _ (h l (List.mem_cons_self l _)) []]
    have ih2 := ih l2 (fun x hx => h x (List.mem_cons_of_mem l hx))
    rw [splitOnChar] at ih2
    rw [ih2]
    simp

/-- Splitting a newline-joined nonempty line list recovers the lines,
with a final empty piece for the trailing newline. -/
theorem splitOnChar_joinLines (c : Char) (ls : List Str) (hne : ls ≠ [])
    (h : ∀ x ∈ ls, c ∉ x) :
    splitOnChar c (List.intercalate [c] ls ++ [c]) = ls ++ [[]] := by
  obtain ⟨l, ls2, rfl⟩ := List.exists_cons_of_ne_nil hne
  exact splitOnChar_joinLines_cons c l ls2 h

/-- The `[vpm]` header line lexes to its table token. -/
theorem parseTomlLine_vpm :
    parseTomlLine "[vpm]".toList = some (.table "vpm".toList) := by decide

/-- The `[[packages]]` header line lexes to its array-table token. -/
theorem parseTomlLine_packages :
    parseTomlLine "[[packages]]".toList = some (.arrayTable "packages".toList) := by decide

/-- The empty line lexes to a blank token. -/
theorem parseTomlLine_blank : parseTomlLine [] = some .blank := by decide


/-- Binding a present optional value. -/
theorem opt_bind_some {α β : Type _} (a : α) (f : α → Option β) :
    (some a >>= f) = f a := rfl

/-- A serialized key-value line contains no raw newline. -/
theorem newline_not_mem_kvLine (key v : Str) (hk : '\n' ∉ key) :
    '\n' ∉ kvLineOut key (prettyStringRepr v) := by
  intro hm
  rw [kvLineOut] at hm
  rcases List.mem_append.mp hm with h | h
  · exact hk h
  · rcases List.mem_cons.mp h with h2 | h2
    · exact absurd h2 (by decide)
    · rcases List.mem_cons.mp h2 with h3 | h3
      · exact absurd h3 (by decide)
      · rcases List.mem_cons.mp h3 with h4 | h4
        · exact absurd h4 (by decide)
        · exact newline_not_mem_pretty v h4

/-- No serialized manifest line contains a raw newline. -/
theorem manifestLines_no_newline (m : Manifest) :
    ∀ l ∈ manifestLinesWith prettyStringRepr m, '\n' ∉ l := by
  intro l hl
  rw [manifestLinesWith] at hl
  rcases List.mem_append.mp hl with h | h
  · rcases List.mem_cons.mp h with h1 | h
    · rw [h1]; decide
    · rcases List.mem_cons.mp h with h1 | h
      · rw [h1]; exact newline_not_mem_kvLine _ _ (by decide)
      · rcases List.mem_cons.mp h with h1 | h
        · rw [h1]; exact newline_not_mem_kvLine _ _ (by decide)
        · rcases List.mem_cons.mp h with h1 | h
          · rw [h1]; exact newline_not_mem_kvLine _ _ (by decide)
          · rcases List.mem_cons.mp h with h1 | h
            · rw [h1]; exact newline_not_mem_kvLine _ _ (by decide)
            · exact absurd h (List.not_mem_nil l)
  · rcases List.mem_flatten.mp h with ⟨chunk, hchunk, hlc⟩
    rcases List.mem_map.mp hchunk with ⟨p, hp, hpc⟩
    rw [← hpc] at hlc
    rcases List.mem_cons.mp hlc with h1 | h
    · rw [h1]; decide
    · rcases List.mem_cons.mp h with h1 | h
      · rw [h1]; decide
      · rcases List.mem_cons.mp h with h1 | h
        · rw [h1]; exact newline_not_mem_kvLine _ _ (by decide)
        · rcases List.mem_cons.mp h with h1 | h
          · rw [h1]; exact newline_not_mem_kvLine _ _ (by decide)
          · exact absurd h (List.not_mem_nil l)

/-- Lexing the serialized package blocks (with the trailing blank). -/
theorem mapM_lines_pkgs (ps : List Package) :
    (((ps.map (fun p => [([] : Str), "[[packages]]".toList,
        kvLineOut "id".toList (prettyStringRepr p.id),
        kvLineOut "repository".toList (prettyStringRepr p.repository.display)])).flatten
      ++ [([] : Str)]).mapM parseTomlLine) =
    some ((ps.map (fun p => [TomlLine.blank, TomlLine.arrayTable "packages".toList,
        TomlLine.kv "id".toList p.id,
        TomlLine.kv "repository".toList p.repository.display])).flatten
      ++ [TomlLine.blank]) := by
  induction ps with
  | nil => rfl
  | cons p ps ih =>
    show (([] : Str) :: "[[packages]]".toList ::
        kvLineOut "id".toList (prettyStringRepr p.id) ::
        kvLineOut "repository".toList (prettyStringRepr p.repository.display) ::
        ((ps.map (fun p => [([] : Str), "[[packages]]".toList,
        kvLineOut "id".toList (prettyStringRepr p.id),
        kvLineOut "repository".toList (prettyStringRepr p.repository.display)])).flatten ++ [([] : Str)])).mapM parseTomlLine = _
    rw [List.mapM_cons, List.mapM_cons, List.mapM_cons, List.mapM_cons,
      parseTomlLine_blank, parseTomlLine_packages,
      parseTomlLine_kv "id".toList p.id (by decide) (by decide),
      parseTomlLine_kv "repository".toList p.repository.display (by decide) (by decide),
      ih]
    rfl

/-- Filtering out the blank tokens of the package blocks. -/
theorem filter_toks_pkgs (ps : List Package) :
    ((ps.map (fun p => [TomlLine.blank, TomlLine.arrayTable "packages".toList,
        TomlLine.kv "id".toList p.id,
        TomlLine.kv "repository".toList p.repository.display])).flatten
      ++ [TomlLine.blank]).filter tomlLineIsContent =
    (ps.map (fun p => [TomlLine.arrayTable "packages".toList,
        TomlLine.kv "id".toList p.id,
        TomlLine.kv "repository".toList p.repository.display])).flatten := by
  induction ps with
  | nil => rfl
  | cons p ps ih =>
    show (TomlLine.blank :: TomlLine.arrayTable "packages".toList ::
        TomlLine.kv "id".toList p.id ::
        TomlLine.kv "repository".toList p.repository.display ::
        ((ps.map (fun p => [TomlLine.blank, TomlLine.arrayTable "packages".toList,
        TomlLine.kv "id".toList p.id,
        TomlLine.kv "repository".toList p.repository.display])).flatten ++ [TomlLine.blank])).filter tomlLineIsContent = _
    rw [List.filter_cons, List.filter_cons, List.filter_cons, List.filter_cons]
    rw [show tomlLineIsContent TomlLine.blank = false from rfl,
      show tomlLineIsContent (TomlLine.arrayTable "packages".toList) = true from rfl,
      show tomlLineIsContent (TomlLine.kv "id".toList p.id) = true from rfl,
      show tomlLineIsContent (TomlLine.kv "repository".toList p.repository.display) = true
        from rfl]
    simp only [Bool.false_eq_true, if_false, if_true]
    rw [ih]
    rfl

/-- Grouping the package block tokens into sections. -/
theorem groupAux_pkgs (ps : List Package) (isArr : Bool) (name : Str)
    (acc : List (Str × Str)) :
    groupSectionsAux isArr name acc
      ((ps.map (fun p => [TomlLine.arrayTable "packages".toList,
        TomlLine.kv "id".toList p.id,
        TomlLine.kv "repository".toList p.repository.display])).flatten) =
    some (TomlSection.mk isArr name acc.reverse ::
      ps.map (fun p => TomlSection.mk true "packages".toList
        [("id".toList, p.id), ("repository".toList, p.repository.display)])) := by
  induction ps generalizing isArr name acc with
  | nil => rfl
  | cons p ps ih =>
    show groupSectionsAux isArr name acc
      (TomlLine.arrayTable "packages".toList ::
        TomlLine.kv "id".toList p.id ::
        TomlLine.kv "repository".toList p.repository.display ::
        (ps.map (fun p => [TomlLine.arrayTable "packages".toList,
        TomlLine.kv "id".toList p.id,
        TomlLine.kv "repository".toList p.repository.display])).flatten) = _
    rw [groupSectionsAux, groupSectionsAux, groupSectionsAux, ih]
    rfl

/-- Grouping the full serialized manifest token list. -/
theorem groupSections_manifest (a b c d : Str) (ps : List Package) :
    groupSections (TomlLine.table "vpm".toList ::
      TomlLine.kv "id".toList a :: TomlLine.kv "name".toList b ::
      TomlLine.kv "author".toList c :: TomlLine.kv "url".toList d ::
      (ps.map (fun p => [TomlLine.arrayTable "packages".toList,
        TomlLine.kv "id".toList p.id,
        TomlLine.kv "repository".toList p.repository.display])).flatten) =
    some (TomlSection.mk false "vpm".toList
        [("id".toList, a), ("name".toList, b), ("author".toList, c), ("url".toList, d)] ::
      ps.map (fun p => TomlSection.mk true "packages".toList
        [("id".toList, p.id), ("repository".toList, p.repository.display)])) := by
  rw [groupSections, groupSectionsAux, groupSectionsAux, groupSectionsAux, groupSectionsAux,
    groupAux_pkgs]
  rfl

/-- Deserializing the grouped package sections. -/
theorem mapM_buildPackage (ps : List Package)
    (h : ∀ p ∈ ps, Repository.parse p.repository.display = some p.repository) :
    (ps.map (fun p => TomlSection.mk true "packages".toList
        [("id".toList, p.id), ("repository".toList, p.repository.display)])).mapM (fun s => buildPackage s.kvs) = some ps := by
  induction ps with
  | nil => rfl
  | cons p ps ih =>
    have hb : buildPackage
        [("id".toList, p.id), ("repository".toList, p.repository.display)] = some p := by
      have h2 : buildPackage
          [("id".toList, p.id), ("repository".toList, p.repository.display)] =
          Option.bind (Repository.parse p.repository.display)
            (fun repo => some (Package.mk p.id repo)) := rfl
      rw [h2, h p (List.mem_cons_self p ps)]
      rfl
    have ih2 := ih (fun q hq => h q (List.mem_cons_of_mem p hq))
    rw [List.map_cons, List.mapM_cons, ih2]
    simp only [hb]
    rfl

/-- `Repository::parse` undoes `Display` on a well-formed coordinate. -/
theorem repository_parse_display (r : Repository)
    (ho : r.owner.isEmpty = false) (hr : r.repo.isEmpty = false)
    (hvo : isValidOwner r.owner = true) (hvr : isValidRepo r.repo = true) :
    Repository.parse r.display = some r := by
  have hall : r.owner.all (fun c => c.isAlphanum || c == '-') = true := by
    simp only [isValidOwner, Bool.and_eq_true] at hvo
    exact hvo.2
  have hno : '/' ∉ r.owner := by
    intro hm
    have h2 := List.all_eq_true.mp hall '/' hm
    revert h2
    decide
  have hnr : '/' ∉ r.repo := by
    intro hm
    have h2 := List.all_eq_true.mp hvr '/' hm
    revert h2
    decide
  rw [Repository.parse, Repository.display, splitOnChar,
    splitOnCharAux_sep '/' r.owner r.repo hno [],
    splitOnCharAux_no_sep '/' r.repo hnr []]
  show (if (r.owner.isEmpty || r.repo.isEmpty) = true then none
    else if (!isValidOwner r.owner || !isValidRepo r.repo) = true then none
    else some (Repository.mk r.owner r.repo)) = some r
  rw [ho, hr, hvo, hvr]
  rfl


/-- Parsing undoes the pretty serializer on manifests with well-formed
repository coordinates. -/
theorem parseManifestToml_serializePretty (m : Manifest)
    (hrepo : ∀ p ∈ m.packages, Repository.parse p.repository.display = some p.repository) :
    parseManifestToml (serializeManifestPretty m) = some m := by
  obtain ⟨⟨a, b, c, d⟩, ps⟩ := m
  have hlines : manifestLinesWith prettyStringRepr (Manifest.mk (Vpm.mk a b c d) ps) =
      ("[vpm]".toList ::
      kvLineOut "id".toList (prettyStringRepr a) ::
      kvLineOut "name".toList (prettyStringRepr b) ::
      kvLineOut "author".toList (prettyStringRepr c) ::
      kvLineOut "url".toList (prettyStringRepr d) ::
      (ps.map (fun p => [([] : Str), "[[packages]]".toList,
        kvLineOut "id".toList (prettyStringRepr p.id),
        kvLineOut "repository".toList (prettyStringRepr p.repository.display)])).flatten) := rfl
  have hnl : ∀ l ∈ manifestLinesWith prettyStringRepr
      (Manifest.mk (Vpm.mk a b c d) ps), '\n' ∉ l :=
    manifestLines_no_newline (Manifest.mk (Vpm.mk a b c d) ps)
  have h1 : splitOnChar '\n' (List.intercalate ['\n']
        (manifestLinesWith prettyStringRepr (Manifest.mk (Vpm.mk a b c d) ps)) ++ ['\n']) =
      ("[vpm]".toList ::
      kvLineOut "id".toList (prettyStringRepr a) ::
      kvLineOut "name".toList (prettyStringRepr b) ::
      kvLineOut "author".toList (prettyStringRepr c) ::
      kvLineOut "url".toList (prettyStringRepr d) ::
      (ps.map (fun p => [([] : Str), "[[packages]]".toList,
        kvLineOut "id".toList (prettyStringRepr p.id),
        kvLineOut "repository".toList (prettyStringRepr p.repository.display)])).flatten) ++ [([] : Str)] := by
    rw [splitOnChar_joinLines '\n' _ (by rw [hlines]; exact fun he => by simpa using congrArg List.length he) hnl, hlines]
  have h2 : (("[vpm]".toList ::
      kvLineOut "id".toList (prettyStringRepr a) ::
      kvLineOut "name".toList (prettyStringRepr b) ::
      kvLineOut "author".toList (prettyStringRepr c) ::
      kvLineOut "url".toList (prettyStringRepr d) ::
      (ps.map (fun p => [([] : Str), "[[packages]]".toList,
        kvLineOut "id".toList (prettyStringRepr p.id),
        kvLineOut "repository".toList (prettyStringRepr p.repository.display)])).flatten) ++ [([] : Str)]).mapM parseTomlLine =
      some (TomlLine.table "vpm".toList ::
      TomlLine.kv "id".toList a :: TomlLine.kv "name".toList b ::
      TomlLine.kv "author".toList c :: TomlLine.kv "url".toList d ::
      ((ps.map (fun p => [TomlLine.blank, TomlLine.arrayTable "packages".toList,
        TomlLine.kv "id".toList p.id,
        TomlLine.kv "repository".toList p.repository.display])).flatten ++ [TomlLine.blank])) := by
    show ("[vpm]".toList ::
      kvLineOut "id".toList (prettyStringRepr a) ::
      kvLineOut "name".toList (prettyStringRepr b) ::
      kvLineOut "author".toList (prettyStringRepr c) ::
      kvLineOut "url".toList (prettyStringRepr d) ::
      ((ps.map (fun p => [([] : Str), "[[packages]]".toList,
        kvLineOut "id".toList (prettyStringRepr p.id),
        kvLineOut "repository".toList (prettyStringRepr p.repository.display)])).flatten ++ [([] : Str)])).mapM parseTomlLine = _
    rw [List.mapM_cons, List.mapM_cons, List.mapM_cons, List.mapM_cons, List.mapM_cons,
      parseTomlLine_vpm,
      parseTomlLine_kv "id".toList a (by decide) (by decide),
      parseTomlLine_kv "name".toList b (by decide) (by decide),
      parseTomlLine_kv "author".toList c (by decide) (by decide),
      parseTomlLine_kv "url".toList d (by decide) (by decide),
      mapM_lines_pkgs]
    rfl
  have h3 : (TomlLine.table "vpm".toList ::
      TomlLine.kv "id".toList a :: TomlLine.kv "name".toList b ::
      TomlLine.kv "author".toList c :: TomlLine.kv "url".toList d ::
      ((ps.map (fun p => [TomlLine.blank, TomlLine.arrayTable "packages".toList,
        TomlLine.kv "id".toList p.id,
        TomlLine.kv "repository".toList p.repository.display])).flatten ++ [TomlLine.blank])).filter tomlLineIsContent =
      (TomlLine.table "vpm".toList ::
      TomlLine.kv "id".toList a :: TomlLine.kv "name".toList b ::
      TomlLine.kv "author".toList c :: TomlLine.kv "url".toList d ::
      (ps.map (fun p => [TomlLine.arrayTable "packages".toList,
        TomlLine.kv "id".toList p.id,
        TomlLine.kv "repository".toList p.repository.display])).flatten) := by
    show TomlLine.table "vpm".toList ::
      TomlLine.kv "id".toList a :: TomlLine.kv "name".toList b ::
      TomlLine.kv "author".toList c :: TomlLine.kv "url".toList d ::
      ((ps.map (fun p => [TomlLine.blank, TomlLine.arrayTable "packages".toList,
        TomlLine.kv "id".toList p.id,
        TomlLine.kv "repository".toList p.repository.display])).flatten ++ [TomlLine.blank]).filter tomlLineIsContent = _
    rw [filter_toks_pkgs]
  have h4 : groupSections (TomlLine.table "vpm".toList ::
      TomlLine.kv "id".toList a :: TomlLine.kv "name".toList b ::
      TomlLine.kv "author".toList c :: TomlLine.kv "url".toList d ::
      (ps.map (fun p => [TomlLine.arrayTable "packages".toList,
        TomlLine.kv "id".toList p.id,
        TomlLine.kv "repository".toList p.repository.display])).flatten) = some (TomlSection.mk false "vpm".toList
        [("id".toList, a), ("name".toList, b), ("author".toList, c), ("url".toList, d)] ::
      ps.map (fun p => TomlSection.mk true "packages".toList
        [("id".toList, p.id), ("repository".toList, p.repository.display)])) :=
    groupSections_manifest a b c d ps
  have h5 : (TomlSection.mk false "vpm".toList
        [("id".toList, a), ("name".toList, b), ("author".toList, c), ("url".toList, d)] ::
      ps.map (fun p => TomlSection.mk true "packages".toList
        [("id".toList, p.id), ("repository".toList, p.repository.display)])).filter (fun s => !s.isArray && s.name = "vpm".toList) =
      [TomlSection.mk false "vpm".toList
        [("id".toList, a), ("name".toList, b), ("author".toList, c), ("url".toList, d)]] := by
    rw [List.filter_cons_of_pos (by rfl)]
    rw [List.filter_eq_nil_iff.mpr (fun s hs => by
      rcases List.mem_map.mp hs with ⟨p, hp, hps⟩
      rw [← hps]
      simp)]
  have h6 : (TomlSection.mk false "vpm".toList
        [("id".toList, a), ("name".toList, b), ("author".toList, c), ("url".toList, d)] ::
      ps.map (fun p => TomlSection.mk true "packages".toList
        [("id".toList, p.id), ("repository".toList, p.repository.display)])).filter (fun s => s.isArray && s.name = "packages".toList) =
      ps.map (fun p => TomlSection.mk true "packages".toList
        [("id".toList, p.id), ("repository".toList, p.repository.display)]) := by
    rw [List.filter_cons_of_neg (by simp)]
    rw [List.filter_eq_self.mpr (fun s hs => by
      rcases List.mem_map.mp hs with ⟨p, hp, hps⟩
      rw [← hps]
      rfl)]
  have hvpmsel : selectVpmSection (TomlSection.mk false "vpm".toList
        [("id".toList, a), ("name".toList, b), ("author".toList, c), ("url".toList, d)] ::
      ps.map (fun p => TomlSection.mk true "packages".toList
        [("id".toList, p.id), ("repository".toList, p.repository.display)])) = some (Vpm.mk a b c d) := by
    rw [selectVpmSection, h5]
    rfl
  have hpkgsel : selectPackageSections (TomlSection.mk false "vpm".toList
        [("id".toList, a), ("name".toList, b), ("author".toList, c), ("url".toList, d)] ::
      ps.map (fun p => TomlSection.mk true "packages".toList
        [("id".toList, p.id), ("repository".toList, p.repository.display)])) = some ps := by
    rw [selectPackageSections, h6]
    exact mapM_buildPackage ps (fun p hp => hrepo p hp)
  simp only [parseManifestToml, serializeManifestPretty, joinLines]
  rw [h1, h2]
  simp only [opt_bind_some]
  rw [h3, h4]
  simp only [opt_bind_some]
  rw [hvpmsel]
  simp only [opt_bind_some]
  rw [hpkgsel]
  simp only [opt_bind_some]
  rfl

/-- C8: the manifest hash is invariant under document formatting: any
two documents parsing to the same manifest value hash identically; and
for a valid manifest with well-formed repository coordinates, saving
(pretty TOML) and re-loading returns the same value, so the file hash
of the saved document equals the value hash of the manifest. -/
theorem manifest_hash_format_invariance (m : Manifest)
    (hvalid : m.validate = .ok ())
    (hrepo : ∀ p ∈ m.packages, p.repository.owner.isEmpty = false ∧
      p.repository.repo.isEmpty = false ∧ isValidOwner p.repository.owner = true ∧
      isValidRepo p.repository.repo = true) :
    (∀ d1 d2 : Str, parseManifestToml d1 = some m → parseManifestToml d2 = some m →
      computeManifestHashFile d1 = computeManifestHashFile d2) ∧
    Manifest.load (Manifest.save m) = .ok m ∧
    computeManifestHashFile (Manifest.save m) =
      .ok (computeManifestHashFromManifest m) := by
  have hround : parseManifestToml (Manifest.save m) = some m := by
    rw [Manifest.save]
    exact parseManifestToml_serializePretty m (fun p hp =>
      repository_parse_display p.repository (hrepo p hp).1 (hrepo p hp).2.1
        (hrepo p hp).2.2.1 (hrepo p hp).2.2.2)
  refine ⟨?_, ?_, ?_⟩
  · intro d1 d2 h1 h2
    simp only [computeManifestHashFile, h1, h2]
  · simp only [Manifest.load, hround, hvalid]
  · simp only [computeManifestHashFile, hround]

/-- Witness for C8: the example manifest survives the save/load round
trip and both hash paths agree on the saved document. -/
theorem manifest_hash_format_invariance_witness :
    Manifest.load (Manifest.save exampleManifest) = .ok exampleManifest ∧
    computeManifestHashFile (Manifest.save exampleManifest) =
      .ok (computeManifestHashFromManifest exampleManifest) := by
  have h := manifest_hash_format_invariance exampleManifest rfl (by decide)
  exact ⟨h.2.1, h.2.2⟩


end Voyager
